import Mathlib

/-!
Verification of the `repo` tool (src/src/main.rs): a Git workflow simulation
program that synthesizes files, commits, branches and nine kinds of merge
conflict.  The Rust program is shallowly embedded here:

* file text is modelled as `List Char` (`Str`), so that Rust's `str::lines`,
  `Vec::insert`, `join("\n")` and friends become plain list functions;
* the mutable `RepoTool` (with its `command_count`, word corpus and working
  directory) together with the filesystem under the tracked `src` root and
  the state of the underlying git repository is a `Sim` record;
* fallible operations (`Result<T>` in Rust) live in the monad
  `M α = Sim → Sim × Except GErr α`: state mutations performed before a
  failure survive it, exactly like `&mut self` methods returning `Err`;
* randomness (`rand::rng()` draws) is an oracle inside `Sim`: each call of
  `random_range` / `random_bool` / `choose` consumes the next oracle value,
  so a theorem quantified over `Sim` covers every possible random outcome;
* the external `git` subprocess is interpreted by `gitExec`, a small-step
  semantics of exactly the subcommands the tool issues (checkout,
  checkout -b, add, commit, status -s, rev-parse --abbrev-ref HEAD);
  branches store their committed tree, `checkout` restores it.
-/

/-- File text, the contents of a text file, as a list of characters
(Rust `String` file contents). -/
abbrev Str := List Char

/-- Strip one trailing carriage return, as Rust's `str::lines` does on each
produced line. -/
def stripCR (l : Str) : Str :=
  if l.getLast? = some '\r' then l.dropLast else l

/-- Split a character list at every newline; never returns `[]`
(the empty text gives one empty piece). -/
def splitNL : Str → List Str
  | [] => [[]]
  | c :: cs =>
    if c = '\n' then [] :: splitNL cs
    else
      match splitNL cs with
      | [] => [[c]]
      | l :: ls => (c :: l) :: ls

/-- Drop one optional trailing newline ("the final line ending is optional"
in Rust's `str::lines`). -/
def dropTrailNL (c : Str) : Str :=
  if c.getLast? = some '\n' then c.dropLast else c

/-- Rust `str::lines`: drop one optional trailing newline, split at `'\n'`,
strip one trailing `'\r'` from each piece; the empty string yields no lines. -/
def rustLines (c : Str) : List Str :=
  if c = [] then [] else (splitNL (dropTrailNL c)).map stripCR

/-- The line list `modify` works on: `content.lines()` with an empty string
pushed when the file is empty (`src/src/main.rs` lines 895-899), so an empty
file counts as one empty line. -/
def modifyLines (c : Str) : List Str :=
  if c = [] then [[]] else rustLines c

/-- Line count of a file under the `modify` convention (empty file = one
empty line). -/
def lineCountF (c : Str) : Nat := (modifyLines c).length

/-- The four modification kinds of the `modify` subcommand
(`ModifyType` in src/src/main.rs; `Prefix`/`Suffix` are renamed here because
`prefix` is a Lean keyword). -/
inductive ModifyType where
  | append
  | prepend
  | prefixOp
  | suffixOp
deriving DecidableEq, Repr

/-- The edit `modify` performs on the line vector
(`src/src/main.rs` lines 918-931): append inserts the new line after the
target index, prepend before it, prefix/suffix concatenate the new text with
a single space before/after the target line. -/
def applyModify (lines : List Str) (idx : Nat) (mt : ModifyType) (m : Str) : List Str :=
  match mt with
  | .append => lines.insertIdx (idx + 1) m
  | .prepend => lines.insertIdx idx m
  | .prefixOp => lines.set idx (m ++ " ".data ++ lines.getD idx [])
  | .suffixOp => lines.set idx (lines.getD idx [] ++ " ".data ++ m)

-- ### Basic lemmas about the splitter

theorem splitNL_ne_nil (c : Str) : splitNL c ≠ [] := by
  induction c with
  | nil => simp [splitNL]
  | cons a as ih =>
    simp only [splitNL]
    split
    · simp
    · match h : splitNL as with
      | [] => exact absurd h ih
      | l :: ls => simp

theorem modifyLines_ne_nil (c : Str) : modifyLines c ≠ [] := by
  unfold modifyLines rustLines
  split
  · simp
  · simp only [ne_eq, List.map_eq_nil_iff]
    exact splitNL_ne_nil _

/-- Pieces produced by `splitNL` never contain a newline. -/
theorem splitNL_nl_free {c : Str} {l : Str} (h : l ∈ splitNL c) : '\n' ∉ l := by
  induction c generalizing l with
  | nil =>
    simp [splitNL] at h
    simp [h]
  | cons a as ih =>
    by_cases ha : a = '\n'
    · subst ha
      simp only [splitNL, if_pos rfl] at h
      rcases List.mem_cons.mp h with h' | h'
      · simp [h']
      · exact ih h'
    · simp only [splitNL, if_neg ha] at h
      match hs : splitNL as with
      | [] => exact absurd hs (splitNL_ne_nil as)
      | l' :: ls =>
        rw [hs] at h
        rcases List.mem_cons.mp h with h' | h'
        · subst h'
          intro hmem
          rcases List.mem_cons.mp hmem with h'' | h''
          · exact ha h''.symm
          · exact ih (by rw [hs]; exact List.mem_cons_self _ _) h''
        · exact ih (by rw [hs]; exact List.mem_cons.mpr (Or.inr h'))

/-- Splitting a newline-free text gives back a single piece. -/
theorem splitNL_of_nl_free {c : Str} (h : '\n' ∉ c) : splitNL c = [c] := by
  induction c with
  | nil => simp [splitNL]
  | cons a as ih =>
    simp only [List.mem_cons, not_or] at h
    have ha : ¬ a = '\n' := fun he => h.1 he.symm
    simp only [splitNL, if_neg ha]
    rw [ih h.2]

/-- Splitting `l ++ '\n' :: ys` where `l` is newline-free peels off `l`. -/
theorem splitNL_append {l ys : Str} (h : '\n' ∉ l) :
    splitNL (l ++ '\n' :: ys) = l :: splitNL ys := by
  induction l with
  | nil => simp [splitNL]
  | cons a as ih =>
    simp only [List.mem_cons, not_or] at h
    have ha : ¬ a = '\n' := fun he => h.1 he.symm
    rw [List.cons_append]
    simp only [splitNL, if_neg ha, List.append_eq]
    rw [ih h.2]

/-- Rust's `Vec<String>::join(sep)`: concatenate the pieces with `sep`
between consecutive pieces. -/
def joinSep (sep : Str) : List Str → Str
  | [] => []
  | [l] => l
  | l :: l' :: ls => l ++ sep ++ joinSep sep (l' :: ls)

theorem joinSep_getLast? {sep : Str} :
    ∀ {L : List Str} {l : Str}, L.getLast? = some l → l ≠ [] →
      (joinSep sep L).getLast? = l.getLast?
  | [], _, hnil, _ => by simp at hnil
  | [x], l, hl, _ => by
    simp only [List.getLast?_singleton, Option.some.injEq] at hl
    simp [joinSep, hl]
  | x :: y :: ls, l, hl, hne => by
    rw [List.getLast?_cons_cons] at hl
    have ih := @joinSep_getLast? sep _ _ hl hne
    obtain ⟨ch, hch⟩ : ∃ ch, l.getLast? = some ch :=
      ⟨l.getLast hne, List.getLast?_eq_getLast_of_ne_nil hne⟩
    have hne' : joinSep sep (y :: ls) ≠ [] := by
      intro h0
      rw [h0] at ih
      rw [hch] at ih
      simp at ih
    show ((x ++ sep) ++ joinSep sep (y :: ls)).getLast? = l.getLast?
    rw [List.getLast?_append_of_ne_nil _ hne']
    exact ih

theorem splitNL_joinSepNL :
    ∀ {L : List Str}, L ≠ [] → (∀ x ∈ L, '\n' ∉ x) →
      splitNL (joinSep ['\n'] L) = L
  | [], h, _ => absurd rfl h
  | [x], _, hfree => by
    simpa [joinSep] using splitNL_of_nl_free (hfree x (List.mem_singleton_self x))
  | x :: y :: ls, _, hfree => by
    have hx : '\n' ∉ x := hfree x (List.mem_cons_self _ _)
    have : joinSep ['\n'] (x :: y :: ls) = x ++ '\n' :: joinSep ['\n'] (y :: ls) := by
      show (x ++ ['\n']) ++ joinSep ['\n'] (y :: ls) = _
      rw [List.append_assoc]
      rfl
    rw [this, splitNL_append hx,
      splitNL_joinSepNL (List.cons_ne_nil _ _)
        (fun z hz => hfree z (List.mem_cons.mpr (Or.inr hz)))]

/-- Round trip of `modify`: re-reading a file written as `lines.join("\n")`
recovers the line vector (up to the `\r`-stripping `str::lines` performs),
provided no line contains a newline and the last line is non-empty. -/
theorem rustLines_joinSepNL {L : List Str} {l : Str} (hlast : L.getLast? = some l)
    (hl : l ≠ []) (hfree : ∀ x ∈ L, '\n' ∉ x) :
    rustLines (joinSep ['\n'] L) = L.map stripCR := by
  have hL : L ≠ [] := by intro h0; rw [h0] at hlast; simp at hlast
  obtain ⟨ch, hch⟩ : ∃ ch, l.getLast? = some ch :=
    ⟨l.getLast hl, List.getLast?_eq_getLast_of_ne_nil hl⟩
  have hj : (joinSep ['\n'] L).getLast? = some ch := by
    rw [joinSep_getLast? hlast hl]; exact hch
  have hjne : joinSep ['\n'] L ≠ [] := by
    intro h0; rw [h0] at hj; simp at hj
  have hmem : l ∈ L := by
    obtain ⟨h1, h2⟩ := List.mem_getLast?_eq_getLast hlast
    exact h2 ▸ List.getLast_mem h1
  have hchl : ch ∈ l := by
    obtain ⟨h1, h2⟩ := List.mem_getLast?_eq_getLast hch
    exact h2 ▸ List.getLast_mem h1
  have hchn : ch ≠ '\n' := fun he => hfree l hmem (he ▸ hchl)
  rw [rustLines, if_neg hjne, dropTrailNL, if_neg (by rw [hj]; simp [hchn]),
    splitNL_joinSepNL hL hfree]

theorem modifyLines_joinSepNL {L : List Str} {l : Str} (hlast : L.getLast? = some l)
    (hl : l ≠ []) (hfree : ∀ x ∈ L, '\n' ∉ x) :
    modifyLines (joinSep ['\n'] L) = L.map stripCR := by
  have hL : L ≠ [] := by intro h0; rw [h0] at hlast; simp at hlast
  obtain ⟨ch, hch⟩ : ∃ ch, l.getLast? = some ch :=
    ⟨l.getLast hl, List.getLast?_eq_getLast_of_ne_nil hl⟩
  have hj : (joinSep ['\n'] L).getLast? = some ch := by
    rw [joinSep_getLast? hlast hl]; exact hch
  have hjne : joinSep ['\n'] L ≠ [] := by
    intro h0; rw [h0] at hj; simp at hj
  rw [modifyLines, if_neg hjne]
  exact rustLines_joinSepNL hlast hl hfree

-- ### stripCR helpers

theorem stripCR_nl_free {l : Str} (h : '\n' ∉ l) : '\n' ∉ stripCR l := by
  unfold stripCR
  split
  · exact fun hm => h (List.dropLast_subset l hm)
  · exact h

theorem length_stripCR_ge {l : Str} : l.length - 1 ≤ (stripCR l).length := by
  unfold stripCR
  split
  · simp
  · omega

theorem stripCR_eq_self {l : Str} (h : l.getLast? ≠ some '\r') : stripCR l = l := by
  unfold stripCR
  exact if_neg h

/-!  ## The binary-conflict byte patterns

`create_binary_conflict` (src/src/main.rs lines 614-650) writes three 50-byte
files: `(0..50).map(|i| (i * K) as u8)` for K = 3, 5, 7.  The `as u8` cast
truncates modulo 256. -/

/-- Ancestor bytes of the binary conflict: `(0..50).map(|i| (i * 3) as u8)`. -/
def binaryData1 : List Nat := (List.range 50).map (fun i => i * 3 % 256)

/-- Conflict-branch bytes: `(0..50).map(|i| (i * 5) as u8)`. -/
def binaryData2 : List Nat := (List.range 50).map (fun i => i * 5 % 256)

/-- Original-branch bytes: `(0..50).map(|i| (i * 7) as u8)`. -/
def binaryData3 : List Nat := (List.range 50).map (fun i => i * 7 % 256)

/-!  ## The simulation state -/

/-- Error taxonomy of the tool (all `eyre::Report`s in Rust; the spec's §7
taxonomy): a failed git subprocess, a filesystem failure, a line number out
of `[1, lineCount]`, and "no file to operate on". -/
inductive GErr where
  | toolError (msg : String)
  | fsError (msg : String)
  | outOfRange (n len : Nat)
  | noTarget (msg : String)
deriving DecidableEq, Repr

/-- Contents of one file in the working tree: text (written through
`create_file` / `modify`) or raw bytes (the binary-conflict files). -/
inductive FileData where
  | textFile (c : Str)
  | binFile (bs : List Nat)
deriving DecidableEq, Repr

/-- A working-tree file: its data and its permission mode bits
(0o644 = 420 on creation; the mode conflict sets 0o755 = 493). -/
structure FileEntry where
  data : FileData
  mode : Nat
deriving DecidableEq, Repr

/-- The files under the tracked `src` root, keyed by their src-relative
path string (the model flattens directories into full path keys). -/
abbrev FsTree := List (String × FileEntry)

/-- Association-list lookup (leftmost binding wins). -/
def lookupA {β : Type} : List (String × β) → String → Option β
  | [], _ => none
  | (k, v) :: t, key => if k = key then some v else lookupA t key

/-- Association-list insert-or-replace: replaces in place, appends fresh
keys at the end. -/
def setA {β : Type} : List (String × β) → String → β → List (String × β)
  | [], key, v => [(key, v)]
  | (k, w) :: t, key, v => if k = key then (k, v) :: t else (k, w) :: setA t key v

/-- Association-list removal of one key. -/
def eraseA {β : Type} : List (String × β) → String → List (String × β)
  | [], _ => []
  | (k, w) :: t, key => if k = key then t else (k, w) :: eraseA t key

/-- The keys of an association list, in order. -/
def keysA {β : Type} : List (String × β) → List String
  | [] => []
  | (k, _) :: t => k :: keysA t

/-- State of the external git repository, as far as the tool drives it:
each branch stores the tree of its tip commit; `checkout` restores that
tree into the working tree and the index. -/
structure GitState where
  branches : List (String × FsTree)
  current : String
  workTree : FsTree
  index : FsTree
deriving DecidableEq, Repr

/-- The tree at the tip of the current branch (`[]` for an unborn branch
that has no commit yet). -/
def tipTree (g : GitState) : FsTree := (lookupA g.branches g.current).getD []

/-- The paths `git status -s <src>` reports: every path at which HEAD's
tree, the index and the working tree do not all agree (status markers such
as `??`/`A`/`M` are elided; only the set of lines matters to the tool). -/
def statusPaths (g : GitState) : List String :=
  ((keysA (tipTree g) ++ keysA g.index ++ keysA g.workTree).dedup).filter
    (fun p => ¬(lookupA (tipTree g) p = lookupA g.index p ∧
               lookupA g.index p = lookupA g.workTree p))

/-- The `RepoTool` struct fields that the model tracks (src/src/main.rs
lines 137-143); the working directory is implicit (all paths are relative
to the tracked root). -/
structure RepoToolState where
  home_branch : String
  verbose : Bool
  command_count : Nat
  words : List String
deriving DecidableEq, Repr

/-- The random oracle: `nats i` is the i-th value drawn from the RNG for a
numeric draw (`random_range`, `choose`), `coins i` the i-th `random_bool`
outcome.  Quantifying over the oracle quantifies over every possible
sequence of random draws. -/
structure Oracle where
  nats : Nat → Nat
  coins : Nat → Bool

/-- Full simulation state: tool, git repository and random oracle with the
two draw cursors. -/
structure Sim where
  tool : RepoToolState
  git : GitState
  oracle : Oracle
  nidx : Nat
  cidx : Nat

/-- The effect monad of the embedding: Rust's `&mut self` methods returning
`eyre::Result`.  State mutations made before a failure survive it. -/
def M (α : Type) : Type := Sim → Sim × Except GErr α

def M.pure {α : Type} (a : α) : M α := fun s => (s, .ok a)

def M.bind {α β : Type} (x : M α) (f : α → M β) : M β := fun s =>
  match x s with
  | (s', .ok a) => f a s'
  | (s', .error e) => (s', .error e)

instance : Monad M where
  pure := M.pure
  bind := M.bind

/-- Early return with an error (`return Err(...)` / `?` on `Err`). -/
def M.fail {α : Type} (e : GErr) : M α := fun s => (s, .error e)

/-- Lift a pure state transformation (a sequence of random draws) into `M`;
such operations cannot fail. -/
def liftS {α : Type} (f : Sim → α × Sim) : M α := fun s =>
  ((f s).2, .ok (f s).1)

/-- One raw draw from the numeric oracle. -/
def drawRaw (s : Sim) : Nat × Sim :=
  (s.oracle.nats s.nidx, { s with nidx := s.nidx + 1 })

/-- `rand::rng().random_range(lo..=hi)`: an arbitrary draw reduced into the
inclusive range. -/
def drawNat (lo hi : Nat) (s : Sim) : Nat × Sim :=
  (lo + (drawRaw s).1 % (hi + 1 - lo), (drawRaw s).2)

/-- `rand::rng().random_bool(0.7)`: an arbitrary boolean draw. -/
def drawCoin (s : Sim) : Bool × Sim :=
  (s.oracle.coins s.cidx, { s with cidx := s.cidx + 1 })

/-- `gen_word` (src/src/main.rs line 230): one uniformly chosen corpus
word; `choose` is modelled as an oracle-indexed pick (the corpus is
invariantly non-empty, see `load_words`). -/
def genWordS (s : Sim) : String × Sim :=
  (s.tool.words.getD ((drawRaw s).1 % s.tool.words.length) "", (drawRaw s).2)

/-- `gen_words`: `count` independent word draws. -/
def genWordsS : Nat → Sim → List String × Sim
  | 0, s => ([], s)
  | n + 1, s =>
    let r1 := genWordS s
    let r2 := genWordsS n r1.2
    (r1.1 :: r2.1, r2.2)

/-!  ## The external git engine

`gitExec` interprets exactly the subcommands the tool issues.  Stdout is
modelled as a list of lines; the `--no-pager` and `-C <dir>` plumbing that
`run_git` prepends is IO-only and elided. -/

/-- `git checkout <b>`: switch to an existing branch, restoring its
committed tree into the working tree and the index (the tool only switches
from clean states). -/
def doCheckout (b : String) (g : GitState) : Except GErr (List String × GitState) :=
  match lookupA g.branches b with
  | some t => .ok ([], { g with current := b, workTree := t, index := t })
  | none => .error (.toolError ("pathspec did not match any file known to git: " ++ b))

/-- `git checkout -b <b>`: create a branch at the current tip and switch to
it; fails if the branch already exists. -/
def doCheckoutNew (b : String) (g : GitState) : Except GErr (List String × GitState) :=
  if (lookupA g.branches b).isSome then
    .error (.toolError ("a branch named " ++ b ++ " already exists"))
  else
    .ok ([], { g with branches := setA g.branches b (tipTree g), current := b })

/-- `git add <src>`: the tool only ever stages the whole tracked root, so
the index becomes the working tree. -/
def doAdd (g : GitState) : Except GErr (List String × GitState) :=
  .ok ([], { g with index := g.workTree })

/-- `git commit -m <msg>`: fails when nothing is staged, else the current
branch's tip becomes the index. -/
def doCommit (g : GitState) : Except GErr (List String × GitState) :=
  if g.index = tipTree g then .error (.toolError "nothing to commit")
  else .ok ([], { g with branches := setA g.branches g.current g.index })

/-- Interpreter for the git subcommands the tool issues; anything else is a
non-zero exit (the tool never issues other commands in the modelled
operations). -/
def gitExec (args : List String) (g : GitState) : Except GErr (List String × GitState) :=
  match args with
  | ["rev-parse", "--abbrev-ref", "HEAD"] => .ok ([g.current], g)
  | ["checkout", "-b", b] => doCheckoutNew b g
  | ["checkout", b] => doCheckout b g
  | ["add", _] => doAdd g
  | ["commit", "-m", _] => doCommit g
  | ["status", "-s", _] => .ok (statusPaths g, g)
  | _ => .error (.toolError "unmodeled git command")

/-- `run_git` (src/src/main.rs lines 199-228): increment the invocation
counter, then run the external tool; a non-zero exit becomes an error
carrying stderr.  The counter is bumped before execution and therefore also
on failure.  (The verbose echo of `#count cmd args` is IO-only.) -/
def runGit (args : List String) : M (List String) := fun s =>
  let s := { s with tool := { s.tool with command_count := s.tool.command_count + 1 } }
  match gitExec args s.git with
  | .ok (out, g) => ({ s with git := g }, .ok out)
  | .error e => (s, .error e)

/-!  ## Filesystem primitives on the tracked root -/

/-- `fs::write`: create or overwrite a file; a fresh file gets mode 0o644,
an existing file keeps its mode. -/
def writeEntry (t : FsTree) (p : String) (d : FileData) : FsTree :=
  match lookupA t p with
  | some e => setA t p { e with data := d }
  | none => setA t p { data := d, mode := 420 }

def fsWriteText (p : String) (c : Str) : M Unit := fun s =>
  ({ s with git := { s.git with workTree := writeEntry s.git.workTree p (.textFile c) } }, .ok ())

def fsWriteBin (p : String) (bs : List Nat) : M Unit := fun s =>
  ({ s with git := { s.git with workTree := writeEntry s.git.workTree p (.binFile bs) } }, .ok ())

/-- `fs::remove_file`: fails if the file does not exist. -/
def fsRemoveFile (p : String) : M Unit := fun s =>
  match lookupA s.git.workTree p with
  | some _ => ({ s with git := { s.git with workTree := eraseA s.git.workTree p } }, .ok ())
  | none => (s, .error (.fsError ("Failed to delete file: " ++ p)))

/-- `fs::rename`: fails if the source does not exist; the destination is
replaced if present. -/
def fsRename (src dst : String) : M Unit := fun s =>
  match lookupA s.git.workTree src with
  | some e =>
    ({ s with git := { s.git with workTree := setA (eraseA s.git.workTree src) dst e } }, .ok ())
  | none => (s, .error (.fsError ("Failed to rename file from " ++ src ++ " to " ++ dst)))

/-- `fs::metadata` + `set_permissions`: flip the mode bits of an existing
file; fails if it does not exist. -/
def fsSetMode (p : String) (m : Nat) : M Unit := fun s =>
  match lookupA s.git.workTree p with
  | some e =>
    ({ s with git := { s.git with workTree := setA s.git.workTree p { e with mode := m } } }, .ok ())
  | none => (s, .error (.fsError ("Failed to stat file: " ++ p)))

/-- `fs::read_to_string`: fails if the file does not exist.  The byte files
this tool writes (`binaryData1/2/3`) contain bytes ≥ 0x80 that do not form
valid UTF-8, so reading a byte file as a string fails as well. -/
def fsReadToString (p : String) : M Str := fun s =>
  match lookupA s.git.workTree p with
  | some e =>
    match e.data with
    | .textFile c => (s, .ok c)
    | .binFile _ => (s, .error (.fsError ("Failed to read file: " ++ p)))
  | none => (s, .error (.fsError ("Failed to read file: " ++ p)))

/-!  ## Random generators (RandomCorpus) -/

/-- `gen_filepath` (src/src/main.rs lines 238-260) as the sequence of path
components of the returned `PathBuf`: an optional prefix component, then
`depth ∈ [min_depth, max_depth]` random words, with ".txt" appended to the
final component (`set_file_name`).  Corpus words are single components
(lowercase dictionary words contain no separator); pushing an empty prefix
adds no component. -/
def addTxtExt (comps : List String) : List String :=
  match comps.getLast? with
  | none => comps
  | some last => comps.dropLast ++ [last ++ ".txt"]

def genFilepathS (maxDepth minDepth : Nat) (pre : Option String) (s : Sim) :
    List String × Sim :=
  let r1 := drawNat minDepth maxDepth s
  let r2 := genWordsS r1.1 r1.2
  let base := (match pre with
    | some p => if p = "" then [] else [p]
    | none => []) ++ r2.1
  (addTxtExt base, r2.2)

/-- `PathBuf::to_string_lossy`: join the components with `/`. -/
def pathToString (comps : List String) : String :=
  String.intercalate "/" comps

/-- One generated line: `words_per_line` words joined by single spaces
(`gen_content`'s per-line closure), as file text. -/
def genLineS (wpl : Nat) (s : Sim) : Str × Sim :=
  (joinSep " ".data ((genWordsS wpl s).1.map String.data), (genWordsS wpl s).2)

def genLinesS : Nat → Nat → Sim → List Str × Sim
  | 0, _, s => ([], s)
  | n + 1, wpl, s =>
    let r1 := genLineS wpl s
    let r2 := genLinesS n wpl r1.2
    (r1.1 :: r2.1, r2.2)

/-- `gen_content` (src/src/main.rs lines 262-270): draw a line count in
`[min_lines, max_lines]` and one words-per-line value in `[1, 8]`, generate
that many lines and join them with newlines. -/
def genContentS (maxLines minLines : Nat) (s : Sim) : Str × Sim :=
  let r1 := drawNat minLines maxLines s
  let r2 := drawNat 1 8 r1.2
  let r3 := genLinesS r1.1 r2.1 r2.2
  (joinSep "\n".data r3.1, r3.2)

/-!  ## RepoTool operations (RepositoryDriver / HistoryActions) -/

/-- `get_current_branch`: `git rev-parse --abbrev-ref HEAD`, first stdout
line (trimming elided: the model's stdout lines carry no whitespace). -/
def getCurrentBranch : M String := do
  let out ← runGit ["rev-parse", "--abbrev-ref", "HEAD"]
  pure (out.getD 0 "")

/-- `git_add_src`: stage the whole tracked root. -/
def gitAddSrc : M Unit := do
  let _ ← runGit ["add", "src"]
  pure ()

/-- `git_status`: `git status -s <src>`, stdout split into lines. -/
def gitStatus : M (List String) :=
  runGit ["status", "-s", "src"]

/-- `find_files_in_src` (src/src/main.rs lines 303-327): every regular file
under the tracked root; the model's flat tree lists them directly.  Cannot
fail (a missing root yields the empty list). -/
def findFilesInSrc : M (List String) := fun s =>
  (s, .ok (keysA s.git.workTree))

/-- `get_random_file`: a uniformly chosen tracked file, or `none` if there
are none. -/
def getRandomFile : M (Option String) := fun s =>
  if keysA s.git.workTree = [] then (s, .ok none)
  else
    ((drawRaw s).2, .ok (some ((keysA s.git.workTree).getD
      ((drawRaw s).1 % (keysA s.git.workTree).length) "")))

/-- `create_file` (src/src/main.rs lines 863-883): write `content` at the
path resolved under the tracked root (absolute paths and parent-directory
creation are resolved away: the model keys every file by its src-relative
path string). -/
def createFile (filepath : String) (content : Str) : M Unit :=
  fsWriteText filepath content

/-- `filepath.unwrap_or_else(|| ...)` patterns: use the supplied value or
run the fallback generator. -/
def unwrapOrElse {α : Type} (x : Option α) (gen : M α) : M α :=
  match x with
  | some v => pure v
  | none => gen

def genWordM : M String := liftS genWordS

def genContentM (maxLines minLines : Nat) : M Str :=
  liftS (genContentS maxLines minLines)

/-- The default random path of `create`/`conflict`:
`gen_filepath(3, 1, None).to_string_lossy()`. -/
def genPathM : M String :=
  liftS (fun s =>
    (pathToString (genFilepathS 3 1 none s).1, (genFilepathS 3 1 none s).2))

/-- The target-file resolution of `modify` (src/src/main.rs lines 886-890):
the given path, or a random tracked file, failing when none exists. -/
def modifyTarget (filepath : Option String) : M String :=
  match filepath with
  | some fp => pure fp
  | none => do
    let r ← getRandomFile
    match r with
    | some f => pure f
    | none => M.fail (.noTarget "No files found to modify")

/-- The line-index resolution of `modify` (src/src/main.rs lines 901-908):
an explicit 1-based number must satisfy `1 ≤ n ≤ len`, otherwise the
out-of-range error; absent, a uniformly random 0-based index. -/
def modifyLineIdx (lineno : Option Nat) (len : Nat) : M Nat :=
  match lineno with
  | some ln =>
    if ln = 0 ∨ ln > len then M.fail (.outOfRange ln len)
    else pure (ln - 1)
  | none => liftS (drawNat 0 (len - 1))

/-- `modify` (src/src/main.rs lines 885-939): pick the target file (given
or random), read it, split into lines (empty file = one empty line), check
or draw the 1-based line number, generate one random line of text, apply
the modification and rewrite the whole file.  (The `actual_modify_type`
match in the source is the identity and is not repeated here.) -/
def modifyOp (filepath : Option String) (lineno : Option Nat) (mt : ModifyType) : M Unit := do
  let file_path ← modifyTarget filepath
  let content ← fsReadToString file_path
  let lines := modifyLines content
  let line_idx ← modifyLineIdx lineno lines.length
  let modification ← liftS (genContentS 1 1)
  let new_content := joinSep "\n".data (applyModify lines line_idx mt modification)
  fsWriteText file_path new_content

/-- The loop body of `create` (src/src/main.rs lines 840-861): per
iteration, the given path/content or fresh random ones, then `create_file`. -/
def createLoop (filepath content : Option String) : Nat → M Unit
  | 0 => pure ()
  | n + 1 => do
    let path ← match filepath with
      | some fp => pure fp
      | none => genPathM
    let file_content ← match content with
      | some c => pure c.data
      | none => genContentM 5 1
    createFile path file_content
    createLoop filepath content n

/-- `create`: `count` files (0 is normalized to 1). -/
def createOp (count : Nat) (filepath content : Option String) : M Unit :=
  createLoop filepath content (if count = 0 then 1 else count)

/-- The loop body of `change` (src/src/main.rs lines 409-420): if no
tracked files exist, create one; otherwise with probability 0.7 create one,
else modify a random file in append mode.  (`random_bool` is short-circuited
away when the file list is empty, as in the source.) -/
def changeLoop : Nat → M Unit
  | 0 => pure ()
  | n + 1 => do
    let files ← findFilesInSrc
    if files = [] then createOp 1 none none
    else do
      let coin ← liftS drawCoin
      if coin then createOp 1 none none
      else modifyOp none none .append
    changeLoop n

/-- `change`: `count` random changes; 0 is normalized to a random count in
`1..=5`. -/
def changeOp (count : Nat) : M Unit := do
  let actual ← if count = 0 then liftS (drawNat 1 5) else pure count
  changeLoop actual

def getHomeBranch : M String := fun s => (s, .ok s.tool.home_branch)

/-- The commit-message `format!` of `commit` (src/src/main.rs lines
443-444). -/
def buildCommitMsg (name : String) (changes : List String) : String :=
  "'" ++ name ++ "' commit message for:\n  " ++ String.intercalate "\n  " changes

/-- The staging/commit tail of `commit` (src/src/main.rs lines 440-449):
stage the tracked root, re-inspect the status, build the message and run
`git commit`.  Split out of `commitOp` so theorems can speak about the
status inspected immediately before the commit command. -/
def commitFinish (name : String) : M Unit := do
  gitAddSrc
  let changes ← gitStatus
  let commit_msg := buildCommitMsg name changes
  let _ ← runGit ["commit", "-m", commit_msg]
  pure ()

mutual

/-- `branch` (src/src/main.rs lines 377-398): `home` checks out the home
branch, otherwise check out a new branch named `name` or `dev/<word>`;
optionally follow with a default commit. -/
def branchOp (branch_name : Option String) (home commitFlag : Bool) : M Unit := do
  if home then do
    let hb ← getHomeBranch
    let _ ← runGit ["checkout", hb]
    pure ()
  else do
    let name ← match branch_name with
      | some n => pure n
      | none => do
        let w ← genWordM
        pure ("dev/" ++ w)
    let _ ← runGit ["checkout", "-b", name]
    pure ()
  if commitFlag then commitOp none false else pure ()
termination_by (if commitFlag then 2 else 0)

/-- `commit` (src/src/main.rs lines 425-450): optionally branch first; the
message name defaults to a random word; if the tracked root reports no
pending changes, synthesize `1..=3` random changes first; then stage,
re-inspect and commit. -/
def commitOp (commit_name : Option String) (branchFlag : Bool) : M Unit := do
  if branchFlag then branchOp none false false else pure ()
  let name ← match commit_name with
    | some n => pure n
    | none => genWordM
  let status ← gitStatus
  if status = [] then do
    let n ← liftS (drawNat 1 3)
    changeOp n
  else pure ()
  commitFinish name
termination_by (if branchFlag then 3 else 1)

end

/-- `merge` (src/src/main.rs lines 941-944): prints a "not yet implemented"
notice (IO-only) and succeeds. -/
def mergeOp : M Unit := pure ()

/-- `munge` (src/src/main.rs lines 946-949): placeholder, always succeeds. -/
def mungeOp : M Unit := pure ()

/-- `rebase` (src/src/main.rs lines 951-954): placeholder, always
succeeds. -/
def rebaseOp : M Unit := pure ()

/-!  ## The nine conflict scenario builders (ConflictEngine) -/

/-- The nine conflict topologies (`ConflictType`, src/src/main.rs lines
115-135). -/
inductive ConflictType where
  | content
  | deleteModify
  | rename
  | addAdd
  | binary
  | mode
  | whitespace
  | case
  | structural
deriving DecidableEq, Repr

/-- Rust `str::to_lowercase`, modelled per character. -/
def strLower (x : String) : String := String.mk (x.data.map Char.toLower)

/-- Rust `str::to_uppercase`, modelled per character. -/
def strUpper (x : String) : String := String.mk (x.data.map Char.toUpper)

/-- `Path::new(p).file_name()`: the final path component. -/
def pathFileName (p : String) : String := (p.splitOn "/").getLastD ""

/-- `create_content_conflict` (src/src/main.rs lines 468-502). -/
def createContentConflict (filepath content : Option String) : M Unit := do
  let path ← unwrapOrElse filepath genPathM
  let initial_content ← unwrapOrElse (content.map String.data) (genContentM 3 1)
  let original_branch ← getCurrentBranch
  createFile path initial_content
  gitAddSrc
  let _ ← runGit ["commit", "-m", "Initial content for conflict"]
  let w ← genWordM
  let conflict_branch := "conflict-" ++ w
  let _ ← runGit ["checkout", "-b", conflict_branch]
  let w2 ← genWordM
  let modified_content := initial_content ++ " ".data ++ w2.data
  createFile path modified_content
  gitAddSrc
  let _ ← runGit ["commit", "-m", "Modified content on conflict branch"]
  let _ ← runGit ["checkout", original_branch]
  let w3 ← genWordM
  let conflicting_content := initial_content ++ " ".data ++ w3.data
  createFile path conflicting_content
  gitAddSrc
  let _ ← runGit ["commit", "-m", "Conflicting content on original branch"]
  pure ()

/-- `create_delete_modify_conflict` (src/src/main.rs lines 504-538). -/
def createDeleteModifyConflict (filepath content : Option String) : M Unit := do
  let path ← unwrapOrElse filepath genPathM
  let initial_content ← unwrapOrElse (content.map String.data) (genContentM 3 1)
  let original_branch ← getCurrentBranch
  createFile path initial_content
  gitAddSrc
  let _ ← runGit ["commit", "-m", "Initial file for delete/modify conflict"]
  let w ← genWordM
  let conflict_branch := "delete-" ++ w
  let _ ← runGit ["checkout", "-b", conflict_branch]
  fsRemoveFile path
  gitAddSrc
  let _ ← runGit ["commit", "-m", "Deleted file on conflict branch"]
  let _ ← runGit ["checkout", original_branch]
  let extra ← genContentM 2 1
  let modified_content := initial_content ++ "\n".data ++ extra
  createFile path modified_content
  gitAddSrc
  let _ ← runGit ["commit", "-m", "Modified file on original branch"]
  pure ()

/-- `create_rename_conflict` (src/src/main.rs lines 540-581). -/
def createRenameConflict (filepath content : Option String) : M Unit := do
  let original_path ← unwrapOrElse filepath genPathM
  let initial_content ← unwrapOrElse (content.map String.data) (genContentM 3 1)
  let original_branch ← getCurrentBranch
  createFile original_path initial_content
  gitAddSrc
  let _ ← runGit ["commit", "-m", "Initial file for rename conflict"]
  let w ← genWordM
  let conflict_branch := "rename-" ++ w
  let _ ← runGit ["checkout", "-b", conflict_branch]
  let w2 ← genWordM
  let new_name1 := w2 ++ "-version1.txt"
  fsRename original_path new_name1
  gitAddSrc
  let _ ← runGit ["commit", "-m", "Renamed file on conflict branch"]
  let _ ← runGit ["checkout", original_branch]
  let w3 ← genWordM
  let new_name2 := w3 ++ "-version2.txt"
  fsRename original_path new_name2
  gitAddSrc
  let _ ← runGit ["commit", "-m", "Renamed file differently on original branch"]
  pure ()

/-- `create_add_add_conflict` (src/src/main.rs lines 583-612). -/
def createAddAddConflict (filepath content : Option String) : M Unit := do
  let path ← unwrapOrElse filepath (do
    let w ← genWordM
    pure ("shared-" ++ w ++ ".txt"))
  let base_content := (match content with
    | some c => c
    | none => "Base content").data
  let original_branch ← getCurrentBranch
  let w2 ← genWordM
  let conflict_branch := "add-" ++ w2
  let _ ← runGit ["checkout", "-b", conflict_branch]
  let content1 := base_content ++ "\nContent added on branch ".data ++ conflict_branch.data
  createFile path content1
  gitAddSrc
  let _ ← runGit ["commit", "-m", "Added file on conflict branch"]
  let _ ← runGit ["checkout", original_branch]
  let content2 := base_content ++ "\nContent added on branch ".data ++ original_branch.data
  createFile path content2
  gitAddSrc
  let _ ← runGit ["commit", "-m", "Added same file on original branch"]
  pure ()

/-- `create_binary_conflict` (src/src/main.rs lines 614-650); the explicit
content argument is ignored (`_content` in the source). -/
def createBinaryConflict (filepath content : Option String) : M Unit := do
  let _ := content
  let path ← unwrapOrElse filepath (do
    let w ← genWordM
    pure ("binary-" ++ w ++ ".bin"))
  let original_branch ← getCurrentBranch
  fsWriteBin path binaryData1
  gitAddSrc
  let _ ← runGit ["commit", "-m", "Initial binary file"]
  let w2 ← genWordM
  let conflict_branch := "binary-" ++ w2
  let _ ← runGit ["checkout", "-b", conflict_branch]
  fsWriteBin path binaryData2
  gitAddSrc
  let _ ← runGit ["commit", "-m", "Modified binary file on conflict branch"]
  let _ ← runGit ["checkout", original_branch]
  fsWriteBin path binaryData3
  gitAddSrc
  let _ ← runGit ["commit", "-m", "Modified binary file on original branch"]
  pure ()

/-- `create_mode_conflict` (src/src/main.rs lines 652-697). -/
def createModeConflict (filepath content : Option String) : M Unit := do
  let path ← unwrapOrElse filepath (do
    let w ← genWordM
    pure ("script-" ++ w ++ ".sh"))
  let initial_content ← unwrapOrElse (content.map String.data) (do
    let w2 ← genWordM
    pure ("#!/bin/bash\necho \"Hello from ".data ++ w2.data ++ "\"\n".data))
  let original_branch ← getCurrentBranch
  createFile path initial_content
  gitAddSrc
  let _ ← runGit ["commit", "-m", "Initial script file"]
  let w3 ← genWordM
  let conflict_branch := "mode-" ++ w3
  let _ ← runGit ["checkout", "-b", conflict_branch]
  fsSetMode path 493
  gitAddSrc
  let _ ← runGit ["commit", "-m", "Made script executable on conflict branch"]
  let _ ← runGit ["checkout", original_branch]
  let modified_content := initial_content ++ "\necho \"Additional line added\"".data
  createFile path modified_content
  gitAddSrc
  let _ ← runGit ["commit", "-m", "Modified script content on original branch"]
  pure ()

/-- `create_whitespace_conflict` (src/src/main.rs lines 699-741). -/
def createWhitespaceConflict (filepath content : Option String) : M Unit := do
  let path ← unwrapOrElse filepath (do
    let w ← genWordM
    pure ("whitespace-" ++ w ++ ".txt"))
  let base_content := (match content with
    | some c => c
    | none => "Line 1\nLine 2\nLine 3").data
  let original_branch ← getCurrentBranch
  createFile path base_content
  gitAddSrc
  let _ ← runGit ["commit", "-m", "Initial file with whitespace"]
  let w2 ← genWordM
  let conflict_branch := "whitespace-" ++ w2
  let _ ← runGit ["checkout", "-b", conflict_branch]
  let content_with_spaces := joinSep "\n".data ((rustLines base_content).map (· ++ "   ".data))
  createFile path content_with_spaces
  gitAddSrc
  let _ ← runGit ["commit", "-m", "Added trailing whitespace on conflict branch"]
  let _ ← runGit ["checkout", original_branch]
  let content_with_tabs := joinSep "\n".data ((rustLines base_content).map (fun l => '\t' :: l))
  createFile path content_with_tabs
  gitAddSrc
  let _ ← runGit ["commit", "-m", "Added tab indentation on original branch"]
  pure ()

/-- `create_case_conflict` (src/src/main.rs lines 743-793). -/
def createCaseConflict (filepath content : Option String) : M Unit := do
  let base_name ← unwrapOrElse filepath (do
    let w ← genWordM
    pure ("CaseFile-" ++ w ++ ".txt"))
  let initial_content ← unwrapOrElse (content.map String.data) (genContentM 3 1)
  let original_branch ← getCurrentBranch
  createFile base_name initial_content
  gitAddSrc
  let _ ← runGit ["commit", "-m", "Initial file with mixed case name"]
  let w2 ← genWordM
  let conflict_branch := "case-" ++ w2
  let _ ← runGit ["checkout", "-b", conflict_branch]
  let lowercase_name := strLower base_name
  let temp_name := "temp-" ++ base_name
  fsRename base_name temp_name
  fsRename temp_name lowercase_name
  gitAddSrc
  let _ ← runGit ["commit", "-m", "Renamed file to lowercase on conflict branch"]
  let _ ← runGit ["checkout", original_branch]
  let uppercase_name := strUpper base_name
  let temp_name2 := "temp2-" ++ base_name
  fsRename base_name temp_name2
  fsRename temp_name2 uppercase_name
  gitAddSrc
  let _ ← runGit ["commit", "-m", "Renamed file to uppercase on original branch"]
  pure ()

/-- `create_structural_conflict` (src/src/main.rs lines 795-838). -/
def createStructuralConflict (filepath content : Option String) : M Unit := do
  let path := (match filepath with
    | some fp => fp
    | none => "shared/data.txt")
  let initial_content ← unwrapOrElse (content.map String.data) (genContentM 3 1)
  let original_branch ← getCurrentBranch
  createFile path initial_content
  gitAddSrc
  let _ ← runGit ["commit", "-m", "Initial file in directory"]
  let w ← genWordM
  let conflict_branch := "struct-" ++ w
  let _ ← runGit ["checkout", "-b", conflict_branch]
  let w2 ← genWordM
  let new_path := "moved/" ++ w2 ++ "/" ++ pathFileName path
  fsRename path new_path
  gitAddSrc
  let _ ← runGit ["commit", "-m", "Moved file to new directory structure"]
  let _ ← runGit ["checkout", original_branch]
  let extra ← genContentM 2 1
  let modified_content := initial_content ++ "\n".data ++ extra
  createFile path modified_content
  gitAddSrc
  let _ ← runGit ["commit", "-m", "Modified file in original location"]
  pure ()

/-- `conflict` (src/src/main.rs lines 452-466): dispatch to the nine
builders. -/
def conflictOp (filepath content : Option String) (ct : ConflictType) : M Unit :=
  match ct with
  | .content => createContentConflict filepath content
  | .deleteModify => createDeleteModifyConflict filepath content
  | .rename => createRenameConflict filepath content
  | .addAdd => createAddAddConflict filepath content
  | .binary => createBinaryConflict filepath content
  | .mode => createModeConflict filepath content
  | .whitespace => createWhitespaceConflict filepath content
  | .case => createCaseConflict filepath content
  | .structural => createStructuralConflict filepath content

/-!  ## Monad decomposition and preservation lemmas -/

theorem bind_eqM {α β : Type} (x : M α) (f : α → M β) : x >>= f = M.bind x f := rfl

theorem pure_eqM {α : Type} (a : α) (s : Sim) : (pure a : M α) s = (s, .ok a) := rfl

theorem M.bind_ok {α β : Type} {x : M α} {f : α → M β} {s s' : Sim} {b : β} :
    M.bind x f s = (s', Except.ok b) ↔
      ∃ s₁ a, x s = (s₁, Except.ok a) ∧ f a s₁ = (s', Except.ok b) := by
  unfold M.bind
  rcases h : x s with ⟨s₁, r⟩
  cases r with
  | ok a =>
    constructor
    · intro hb
      exact ⟨s₁, a, rfl, hb⟩
    · rintro ⟨s₂, a', ha', hb⟩
      obtain ⟨h1, h2⟩ := Prod.mk.injEq .. ▸ ha'
      cases h1
      cases Except.ok.inj h2
      exact hb
  | error e =>
    constructor
    · intro hb
      simp at hb
    · rintro ⟨s₂, a', ha', _⟩
      simp at ha'

/-- Operations that only advance the random cursors: the git state and the
tool state are untouched. -/
def MGitPres {α : Type} (x : M α) : Prop :=
  ∀ s s' r, x s = (s', r) → s'.git = s.git

/-- Operations that may write files but never touch branches, the current
branch, or the index. -/
def MTreeOnly {α : Type} (x : M α) : Prop :=
  ∀ s s' r, x s = (s', r) →
    s'.git.branches = s.git.branches ∧ s'.git.current = s.git.current ∧
    s'.git.index = s.git.index

/-- Operations that never change which branch is checked out. -/
def MCurPres {α : Type} (x : M α) : Prop :=
  ∀ s s' r, x s = (s', r) → s'.git.current = s.git.current

theorem MGitPres.treeOnly {α : Type} {x : M α} (h : MGitPres x) : MTreeOnly x := by
  intro s s' r hr
  rw [h s s' r hr]
  exact ⟨rfl, rfl, rfl⟩

theorem MTreeOnly.curPres {α : Type} {x : M α} (h : MTreeOnly x) : MCurPres x :=
  fun s s' r hr => (h s s' r hr).2.1

theorem MGitPres.bindGit {α β : Type} {x : M α} {f : α → M β}
    (hx : MGitPres x) (hf : ∀ a, MGitPres (f a)) : MGitPres (x >>= f) := by
  intro s s' r hr
  rw [bind_eqM] at hr
  unfold M.bind at hr
  rcases h : x s with ⟨s₁, r₁⟩
  rw [h] at hr
  cases r₁ with
  | ok a => rw [hf a s₁ s' r hr, hx s s₁ _ h]
  | error e =>
    obtain ⟨h1, _⟩ := Prod.mk.injEq .. ▸ hr
    rw [← h1]
    exact hx s s₁ _ h

theorem MTreeOnly.bindTree {α β : Type} {x : M α} {f : α → M β}
    (hx : MTreeOnly x) (hf : ∀ a, MTreeOnly (f a)) : MTreeOnly (x >>= f) := by
  intro s s' r hr
  rw [bind_eqM] at hr
  unfold M.bind at hr
  rcases h : x s with ⟨s₁, r₁⟩
  rw [h] at hr
  cases r₁ with
  | ok a =>
    obtain ⟨a1, a2, a3⟩ := hx s s₁ _ h
    obtain ⟨b1, b2, b3⟩ := hf a s₁ s' r hr
    exact ⟨b1.trans a1, b2.trans a2, b3.trans a3⟩
  | error e =>
    obtain ⟨h1, _⟩ := Prod.mk.injEq .. ▸ hr
    rw [← h1]
    exact hx s s₁ _ h

theorem MCurPres.bindCur {α β : Type} {x : M α} {f : α → M β}
    (hx : MCurPres x) (hf : ∀ a, MCurPres (f a)) : MCurPres (x >>= f) := by
  intro s s' r hr
  rw [bind_eqM] at hr
  unfold M.bind at hr
  rcases h : x s with ⟨s₁, r₁⟩
  rw [h] at hr
  cases r₁ with
  | ok a => exact (hf a s₁ s' r hr).trans (hx s s₁ _ h)
  | error e =>
    obtain ⟨h1, _⟩ := Prod.mk.injEq .. ▸ hr
    rw [← h1]
    exact hx s s₁ _ h

theorem MGitPres.pureGit {α : Type} (a : α) : MGitPres (pure a : M α) := by
  intro s s' r hr
  obtain ⟨h1, _⟩ := Prod.mk.injEq .. ▸ hr
  rw [← h1]

theorem MGitPres.failGit {α : Type} (e : GErr) : MGitPres (M.fail e : M α) := by
  intro s s' r hr
  obtain ⟨h1, _⟩ := Prod.mk.injEq .. ▸ hr
  rw [← h1]

theorem liftS_eq {α : Type} (f : Sim → α × Sim) (s : Sim) :
    liftS f s = ((f s).2, .ok (f s).1) := rfl


/-- A pure draw sequence: it only advances the numeric cursor, and its
result does not depend on the git state. -/
def DrawFn {α : Type} (f : Sim → α × Sim) : Prop :=
  ∀ s, (∃ n, (f s).2 = { s with nidx := n }) ∧
    (∀ g, f { s with git := g } = ((f s).1, { (f s).2 with git := g }))

theorem DrawFn.gitPres {α : Type} {f : Sim → α × Sim} (h : DrawFn f) :
    MGitPres (liftS f) := by
  intro s s' r hr
  rw [liftS_eq] at hr
  obtain ⟨h1, _⟩ := Prod.mk.injEq .. ▸ hr
  obtain ⟨⟨n, hd⟩, _⟩ := h s
  rw [← h1, hd]

theorem drawRaw_drawFn : DrawFn drawRaw :=
  fun s => ⟨⟨s.nidx + 1, rfl⟩, fun _ => rfl⟩

theorem drawNat_drawFn (lo hi : Nat) : DrawFn (drawNat lo hi) :=
  fun s => ⟨⟨s.nidx + 1, rfl⟩, fun _ => rfl⟩

theorem genWordS_drawFn : DrawFn genWordS :=
  fun s => ⟨⟨s.nidx + 1, rfl⟩, fun _ => rfl⟩

theorem genWordsS_drawFn (n : Nat) : DrawFn (genWordsS n) := by
  induction n with
  | zero => exact fun s => ⟨⟨s.nidx, rfl⟩, fun g => rfl⟩
  | succ k ih =>
    intro s
    obtain ⟨⟨n2, hd2⟩, hc2⟩ := ih (genWordS s).2
    obtain ⟨⟨n1, hd1⟩, hc1⟩ := genWordS_drawFn s
    constructor
    · refine ⟨n2, ?_⟩
      show (genWordsS k (genWordS s).2).2 = _
      rw [hd2, hd1]
    · intro g
      show ((genWordS { s with git := g }).1 ::
        (genWordsS k (genWordS { s with git := g }).2).1,
        (genWordsS k (genWordS { s with git := g }).2).2) = _
      rw [hc1 g]
      rw [hc2 g]
      rfl

theorem genLineS_drawFn (wpl : Nat) : DrawFn (genLineS wpl) := by
  intro s
  obtain ⟨⟨n, hd⟩, hc⟩ := genWordsS_drawFn wpl s
  constructor
  · exact ⟨n, hd⟩
  · intro g
    show (joinSep " ".data ((genWordsS wpl { s with git := g }).1.map String.data),
      (genWordsS wpl { s with git := g }).2) = _
    rw [hc g]
    rfl

theorem genLinesS_drawFn (n wpl : Nat) : DrawFn (genLinesS n wpl) := by
  induction n with
  | zero => exact fun s => ⟨⟨s.nidx, rfl⟩, fun g => rfl⟩
  | succ k ih =>
    intro s
    obtain ⟨⟨n2, hd2⟩, hc2⟩ := ih (genLineS wpl s).2
    obtain ⟨⟨n1, hd1⟩, hc1⟩ := genLineS_drawFn wpl s
    constructor
    · refine ⟨n2, ?_⟩
      show (genLinesS k wpl (genLineS wpl s).2).2 = _
      rw [hd2, hd1]
    · intro g
      show ((genLineS wpl { s with git := g }).1 ::
        (genLinesS k wpl (genLineS wpl { s with git := g }).2).1,
        (genLinesS k wpl (genLineS wpl { s with git := g }).2).2) = _
      rw [hc1 g]
      rw [hc2 g]
      rfl

theorem genContentS_drawFn (maxl minl : Nat) : DrawFn (genContentS maxl minl) := by
  intro s
  obtain ⟨⟨n3, hd3⟩, hc3⟩ :=
    genLinesS_drawFn (drawNat minl maxl s).1 (drawNat 1 8 (drawNat minl maxl s).2).1
      (drawNat 1 8 (drawNat minl maxl s).2).2
  obtain ⟨⟨n2, hd2⟩, hc2⟩ := drawNat_drawFn 1 8 (drawNat minl maxl s).2
  obtain ⟨⟨n1, hd1⟩, hc1⟩ := drawNat_drawFn minl maxl s
  constructor
  · refine ⟨n3, ?_⟩
    show (genLinesS (drawNat minl maxl s).1 (drawNat 1 8 (drawNat minl maxl s).2).1
      (drawNat 1 8 (drawNat minl maxl s).2).2).2 = _
    rw [hd3, hd2, hd1]
  · intro g
    show (joinSep "\n".data (genLinesS (drawNat minl maxl { s with git := g }).1
        (drawNat 1 8 (drawNat minl maxl { s with git := g }).2).1
        (drawNat 1 8 (drawNat minl maxl { s with git := g }).2).2).1,
      (genLinesS (drawNat minl maxl { s with git := g }).1
        (drawNat 1 8 (drawNat minl maxl { s with git := g }).2).1
        (drawNat 1 8 (drawNat minl maxl { s with git := g }).2).2).2) = _
    rw [hc1 g]
    rw [hc2 g]
    rw [hc3 g]
    rfl

theorem genFilepathS_drawFn (maxd mind : Nat) (pre : Option String) :
    DrawFn (genFilepathS maxd mind pre) := by
  intro s
  obtain ⟨⟨n2, hd2⟩, hc2⟩ := genWordsS_drawFn (drawNat mind maxd s).1 (drawNat mind maxd s).2
  obtain ⟨⟨n1, hd1⟩, hc1⟩ := drawNat_drawFn mind maxd s
  constructor
  · refine ⟨n2, ?_⟩
    show (genWordsS (drawNat mind maxd s).1 (drawNat mind maxd s).2).2 = _
    rw [hd2, hd1]
  · intro g
    show (addTxtExt (_ ++ (genWordsS (drawNat mind maxd { s with git := g }).1
        (drawNat mind maxd { s with git := g }).2).1),
      (genWordsS (drawNat mind maxd { s with git := g }).1
        (drawNat mind maxd { s with git := g }).2).2) = _
    rw [hc1 g]
    rw [hc2 g]
    rfl

theorem genPathS_drawFn : DrawFn (fun s =>
    (pathToString (genFilepathS 3 1 none s).1, (genFilepathS 3 1 none s).2)) := by
  intro s
  obtain ⟨⟨n, hd⟩, hc⟩ := genFilepathS_drawFn 3 1 none s
  constructor
  · exact ⟨n, hd⟩
  · intro g
    show (pathToString (genFilepathS 3 1 none { s with git := g }).1,
      (genFilepathS 3 1 none { s with git := g }).2) = _
    rw [hc g]

theorem genWordM_gitPres : MGitPres genWordM := genWordS_drawFn.gitPres

theorem genContentM_gitPres (maxl minl : Nat) : MGitPres (genContentM maxl minl) :=
  (genContentS_drawFn maxl minl).gitPres

theorem genPathM_gitPres : MGitPres genPathM := genPathS_drawFn.gitPres

theorem unwrapOrElse_gitPres {α : Type} {x : Option α} {gen : M α}
    (h : MGitPres gen) : MGitPres (unwrapOrElse x gen) := by
  cases x with
  | some v => exact MGitPres.pureGit v
  | none => exact h

/-!  ## Equations for the git-facing operations -/

theorem gitExec_checkout (b : String) (g : GitState) :
    gitExec ["checkout", b] g = doCheckout b g := by simp [gitExec]

theorem gitExec_checkoutNew (b : String) (g : GitState) :
    gitExec ["checkout", "-b", b] g = doCheckoutNew b g := by simp [gitExec]

theorem gitExec_add (p : String) (g : GitState) :
    gitExec ["add", p] g = doAdd g := by simp [gitExec]

theorem gitExec_commit (m : String) (g : GitState) :
    gitExec ["commit", "-m", m] g = doCommit g := by simp [gitExec]

theorem gitExec_status (p : String) (g : GitState) :
    gitExec ["status", "-s", p] g = .ok (statusPaths g, g) := by simp [gitExec]

theorem gitExec_revparse (g : GitState) :
    gitExec ["rev-parse", "--abbrev-ref", "HEAD"] g = .ok ([g.current], g) := by
  simp [gitExec]

/-- `run_git` with the invocation counter bump made explicit. -/
def bumpC (s : Sim) : Sim :=
  { s with tool := { s.tool with command_count := s.tool.command_count + 1 } }

theorem runGit_eq (args : List String) (s : Sim) :
    runGit args s =
      match gitExec args s.git with
      | .ok (out, g) => ({ bumpC s with git := g }, .ok out)
      | .error e => (bumpC s, .error e) := by
  unfold runGit
  rcases h : gitExec args s.git with ⟨out, g⟩ | e <;> simp only [h] <;> rfl

theorem runGit_count (args : List String) (s : Sim) :
    (runGit args s).1.tool.command_count = s.tool.command_count + 1 := by
  rw [runGit_eq]
  rcases h : gitExec args s.git with ⟨out, g⟩ | e <;> rfl

theorem getCurrentBranch_eq (s : Sim) :
    getCurrentBranch s = (bumpC s, .ok s.git.current) := by
  unfold getCurrentBranch
  rw [bind_eqM]
  unfold M.bind
  rw [runGit_eq, gitExec_revparse]
  rfl

theorem gitAddSrc_eq (s : Sim) :
    gitAddSrc s =
      ({ bumpC s with git := { s.git with index := s.git.workTree } }, .ok ()) := by
  unfold gitAddSrc
  rw [bind_eqM]
  unfold M.bind
  rw [runGit_eq, gitExec_add]
  rfl

theorem gitStatus_eq (s : Sim) :
    gitStatus s = (bumpC s, .ok (statusPaths s.git)) := by
  unfold gitStatus
  rw [runGit_eq, gitExec_status]
  rfl

theorem runGit_commit_eq (m : String) (s : Sim) :
    runGit ["commit", "-m", m] s =
      if s.git.index = tipTree s.git then
        (bumpC s, .error (.toolError "nothing to commit"))
      else
        ({ bumpC s with git :=
          { s.git with branches := setA s.git.branches s.git.current s.git.index } }, .ok []) := by
  rw [runGit_eq, gitExec_commit]
  unfold doCommit
  by_cases hc : s.git.index = tipTree s.git
  · rw [if_pos hc, if_pos hc]
  · rw [if_neg hc, if_neg hc]

theorem runGit_checkout_eq (b : String) (s : Sim) :
    runGit ["checkout", b] s =
      match lookupA s.git.branches b with
      | some t =>
        ({ bumpC s with git := { s.git with current := b, workTree := t, index := t } }, .ok [])
      | none =>
        (bumpC s, .error (.toolError
          ("pathspec did not match any file known to git: " ++ b))) := by
  rw [runGit_eq, gitExec_checkout]
  unfold doCheckout
  rcases h : lookupA s.git.branches b with _ | t <;> rfl

theorem runGit_checkoutNew_eq (b : String) (s : Sim) :
    runGit ["checkout", "-b", b] s =
      if (lookupA s.git.branches b).isSome then
        (bumpC s, .error (.toolError ("a branch named " ++ b ++ " already exists")))
      else
        ({ bumpC s with git :=
          { s.git with branches := setA s.git.branches b (tipTree s.git), current := b } },
          .ok []) := by
  rw [runGit_eq, gitExec_checkoutNew]
  unfold doCheckoutNew
  by_cases hc : (lookupA s.git.branches b).isSome
  · rw [if_pos hc, if_pos hc]
  · rw [if_neg hc, if_neg hc]

/-- Current-branch preservation facts. -/
theorem runGit_commit_curPres (m : String) : MCurPres (runGit ["commit", "-m", m]) := by
  intro s s' r hr
  rw [runGit_commit_eq] at hr
  split at hr <;> (obtain ⟨h1, _⟩ := Prod.mk.injEq .. ▸ hr; rw [← h1]) <;> rfl

theorem gitAddSrc_curPres : MCurPres gitAddSrc := by
  intro s s' r hr
  rw [gitAddSrc_eq] at hr
  obtain ⟨h1, _⟩ := Prod.mk.injEq .. ▸ hr
  rw [← h1]

theorem runGit_checkout_current {b : String} {s s' : Sim} {out : List String}
    (h : runGit ["checkout", b] s = (s', .ok out)) : s'.git.current = b := by
  rw [runGit_checkout_eq] at h
  rcases hl : lookupA s.git.branches b with _ | t <;> rw [hl] at h
  · exact absurd (Prod.mk.injEq .. ▸ h).2 (by simp)
  · obtain ⟨h1, _⟩ := Prod.mk.injEq .. ▸ h
    rw [← h1]

theorem fsWriteText_treeOnly (p : String) (c : Str) : MTreeOnly (fsWriteText p c) := by
  intro s s' r hr
  obtain ⟨h1, _⟩ := Prod.mk.injEq .. ▸ hr
  rw [← h1]
  exact ⟨rfl, rfl, rfl⟩

theorem fsWriteBin_treeOnly (p : String) (bs : List Nat) : MTreeOnly (fsWriteBin p bs) := by
  intro s s' r hr
  obtain ⟨h1, _⟩ := Prod.mk.injEq .. ▸ hr
  rw [← h1]
  exact ⟨rfl, rfl, rfl⟩

theorem fsRemoveFile_treeOnly (p : String) : MTreeOnly (fsRemoveFile p) := by
  intro s s' r hr
  unfold fsRemoveFile at hr
  rcases h : lookupA s.git.workTree p with _ | e <;> rw [h] at hr <;>
    (obtain ⟨h1, _⟩ := Prod.mk.injEq .. ▸ hr; rw [← h1]) <;> exact ⟨rfl, rfl, rfl⟩

theorem fsRename_treeOnly (src dst : String) : MTreeOnly (fsRename src dst) := by
  intro s s' r hr
  unfold fsRename at hr
  rcases h : lookupA s.git.workTree src with _ | e <;> rw [h] at hr <;>
    (obtain ⟨h1, _⟩ := Prod.mk.injEq .. ▸ hr; rw [← h1]) <;> exact ⟨rfl, rfl, rfl⟩

theorem fsSetMode_treeOnly (p : String) (m : Nat) : MTreeOnly (fsSetMode p m) := by
  intro s s' r hr
  unfold fsSetMode at hr
  rcases h : lookupA s.git.workTree p with _ | e <;> rw [h] at hr <;>
    (obtain ⟨h1, _⟩ := Prod.mk.injEq .. ▸ hr; rw [← h1]) <;> exact ⟨rfl, rfl, rfl⟩

theorem fsReadToString_gitPres (p : String) : MGitPres (fsReadToString p) := by
  intro s s' r hr
  unfold fsReadToString at hr
  split at hr
  · split at hr <;> (obtain ⟨h1, _⟩ := Prod.mk.injEq .. ▸ hr; rw [← h1])
  · obtain ⟨h1, _⟩ := Prod.mk.injEq .. ▸ hr
    rw [← h1]

theorem createFile_treeOnly (p : String) (c : Str) : MTreeOnly (createFile p c) :=
  fsWriteText_treeOnly p c

/-!  ## Claim C4: every conflict builder restores the original branch -/

theorem MCurPres_of_run {α : Type} {x : M α} (h : MCurPres x) {s s' : Sim}
    {r : Except GErr α} (hr : x s = (s', r)) : s'.git.current = s.git.current :=
  h s s' r hr

theorem createContentConflict_restores {fp c : Option String} {s s' : Sim}
    (h : createContentConflict fp c s = (s', .ok ())) :
    s'.git.current = s.git.current := by
  unfold createContentConflict at h
  simp only [bind_eqM, M.bind_ok] at h
  obtain ⟨s1, path, h1, s2, ic, h2, s3, ob, h3, s4, u4, h4, s5, u5, h5, s6, o6, h6,
    s7, w, h7, s8, o8, h8, s9, w2, h9, s10, u10, h10, s11, u11, h11, s12, o12, h12,
    s13, o13, h13, s14, w3, h14, s15, u15, h15, s16, u16, h16, s17, o17, h17, hp⟩ := h
  -- the original branch read at the start is the current branch of s
  have e1 : s1.git = s.git := unwrapOrElse_gitPres genPathM_gitPres s s1 _ h1
  have e2 : s2.git = s1.git :=
    unwrapOrElse_gitPres (genContentM_gitPres 3 1) s1 s2 _ h2
  rw [getCurrentBranch_eq] at h3
  obtain ⟨h3s, h3v⟩ := Prod.mk.injEq .. ▸ h3
  have hob : ob = s.git.current := by
    rw [← Except.ok.inj h3v, e2, e1]
  -- after the final checkout of the original branch the current branch is ob
  have hcur13 : s13.git.current = ob := runGit_checkout_current h13
  -- and the tail operations preserve it
  have e14 : s14.git = s13.git := genWordM_gitPres s13 s14 _ h14
  have c15 : s15.git.current = s14.git.current :=
    (createFile_treeOnly _ _).curPres s14 s15 _ h15
  have c16 : s16.git.current = s15.git.current := gitAddSrc_curPres s15 s16 _ h16
  have c17 : s17.git.current = s16.git.current := runGit_commit_curPres _ s16 s17 _ h17
  obtain ⟨hps, _⟩ := Prod.mk.injEq .. ▸ hp
  rw [← hps, c17, c16, c15, e14, hcur13, hob]

theorem createDeleteModifyConflict_restores {fp c : Option String} {s s' : Sim}
    (h : createDeleteModifyConflict fp c s = (s', .ok ())) :
    s'.git.current = s.git.current := by
  unfold createDeleteModifyConflict at h
  simp only [bind_eqM, M.bind_ok] at h
  obtain ⟨s1, path, h1, s2, ic, h2, s3, ob, h3, s4, u4, h4, s5, u5, h5, s6, o6, h6,
    s7, w, h7, s8, o8, h8, s9, u9, h9, s10, u10, h10, s11, o11, h11, s12, o12, h12,
    s13, ex, h13, s14, u14, h14, s15, u15, h15, s16, o16, h16, hp⟩ := h
  have e1 : s1.git = s.git := unwrapOrElse_gitPres genPathM_gitPres s s1 _ h1
  have e2 : s2.git = s1.git :=
    unwrapOrElse_gitPres (genContentM_gitPres 3 1) s1 s2 _ h2
  rw [getCurrentBranch_eq] at h3
  obtain ⟨h3s, h3v⟩ := Prod.mk.injEq .. ▸ h3
  have hob : ob = s.git.current := by
    rw [← Except.ok.inj h3v, e2, e1]
  have hcur : s12.git.current = ob := runGit_checkout_current h12
  have e13 : s13.git = s12.git := genContentM_gitPres 2 1 s12 s13 _ h13
  have c14 : s14.git.current = s13.git.current :=
    (createFile_treeOnly _ _).curPres s13 s14 _ h14
  have c15 : s15.git.current = s14.git.current := gitAddSrc_curPres s14 s15 _ h15
  have c16 : s16.git.current = s15.git.current := runGit_commit_curPres _ s15 s16 _ h16
  obtain ⟨hps, _⟩ := Prod.mk.injEq .. ▸ hp
  rw [← hps, c16, c15, c14, e13, hcur, hob]

theorem createRenameConflict_restores {fp c : Option String} {s s' : Sim}
    (h : createRenameConflict fp c s = (s', .ok ())) :
    s'.git.current = s.git.current := by
  unfold createRenameConflict at h
  simp only [bind_eqM, M.bind_ok] at h
  obtain ⟨s1, path, h1, s2, ic, h2, s3, ob, h3, s4, u4, h4, s5, u5, h5, s6, o6, h6,
    s7, w, h7, s8, o8, h8, s9, w2, h9, s10, u10, h10, s11, u11, h11, s12, o12, h12,
    s13, o13, h13, s14, w3, h14, s15, u15, h15, s16, u16, h16, s17, o17, h17, hp⟩ := h
  have e1 : s1.git = s.git := unwrapOrElse_gitPres genPathM_gitPres s s1 _ h1
  have e2 : s2.git = s1.git :=
    unwrapOrElse_gitPres (genContentM_gitPres 3 1) s1 s2 _ h2
  rw [getCurrentBranch_eq] at h3
  obtain ⟨h3s, h3v⟩ := Prod.mk.injEq .. ▸ h3
  have hob : ob = s.git.current := by
    rw [← Except.ok.inj h3v, e2, e1]
  have hcur : s13.git.current = ob := runGit_checkout_current h13
  have e14 : s14.git = s13.git := genWordM_gitPres s13 s14 _ h14
  have c15 : s15.git.current = s14.git.current :=
    (fsRename_treeOnly _ _).curPres s14 s15 _ h15
  have c16 : s16.git.current = s15.git.current := gitAddSrc_curPres s15 s16 _ h16
  have c17 : s17.git.current = s16.git.current := runGit_commit_curPres _ s16 s17 _ h17
  obtain ⟨hps, _⟩ := Prod.mk.injEq .. ▸ hp
  rw [← hps, c17, c16, c15, e14, hcur, hob]

theorem createAddAddConflict_restores {fp c : Option String} {s s' : Sim}
    (h : createAddAddConflict fp c s = (s', .ok ())) :
    s'.git.current = s.git.current := by
  unfold createAddAddConflict at h
  simp only [bind_eqM, M.bind_ok] at h
  obtain ⟨s1, path, h1, s2, ob, h2, s3, w2, h3, s4, o4, h4, s5, u5, h5, s6, u6, h6,
    s7, o7, h7, s8, o8, h8, s9, u9, h9, s10, u10, h10, s11, o11, h11, hp⟩ := h
  have e1 : s1.git = s.git :=
    unwrapOrElse_gitPres
      (MGitPres.bindGit genWordM_gitPres (fun w => MGitPres.pureGit _)) s s1 _ h1
  rw [getCurrentBranch_eq] at h2
  obtain ⟨h2s, h2v⟩ := Prod.mk.injEq .. ▸ h2
  have hob : ob = s.git.current := by
    rw [← Except.ok.inj h2v, e1]
  have hcur : s8.git.current = ob := runGit_checkout_current h8
  have c9 : s9.git.current = s8.git.current :=
    (createFile_treeOnly _ _).curPres s8 s9 _ h9
  have c10 : s10.git.current = s9.git.current := gitAddSrc_curPres s9 s10 _ h10
  have c11 : s11.git.current = s10.git.current := runGit_commit_curPres _ s10 s11 _ h11
  obtain ⟨hps, _⟩ := Prod.mk.injEq .. ▸ hp
  rw [← hps, c11, c10, c9, hcur, hob]

theorem createBinaryConflict_restores {fp c : Option String} {s s' : Sim}
    (h : createBinaryConflict fp c s = (s', .ok ())) :
    s'.git.current = s.git.current := by
  unfold createBinaryConflict at h
  simp only [bind_eqM, M.bind_ok] at h
  obtain ⟨s1, path, h1, s2, ob, h2, s3, u3, h3, s4, u4, h4, s5, o5, h5,
    s6, w2, h6, s7, o7, h7, s8, u8, h8, s9, u9, h9, s10, o10, h10,
    s11, o11, h11, s12, u12, h12, s13, u13, h13, s14, o14, h14, hp⟩ := h
  have e1 : s1.git = s.git :=
    unwrapOrElse_gitPres
      (MGitPres.bindGit genWordM_gitPres (fun w => MGitPres.pureGit _)) s s1 _ h1
  rw [getCurrentBranch_eq] at h2
  obtain ⟨h2s, h2v⟩ := Prod.mk.injEq .. ▸ h2
  have hob : ob = s.git.current := by
    rw [← Except.ok.inj h2v, e1]
  have hcur : s11.git.current = ob := runGit_checkout_current h11
  have c12 : s12.git.current = s11.git.current :=
    (fsWriteBin_treeOnly _ _).curPres s11 s12 _ h12
  have c13 : s13.git.current = s12.git.current := gitAddSrc_curPres s12 s13 _ h13
  have c14 : s14.git.current = s13.git.current := runGit_commit_curPres _ s13 s14 _ h14
  obtain ⟨hps, _⟩ := Prod.mk.injEq .. ▸ hp
  rw [← hps, c14, c13, c12, hcur, hob]

theorem createModeConflict_restores {fp c : Option String} {s s' : Sim}
    (h : createModeConflict fp c s = (s', .ok ())) :
    s'.git.current = s.git.current := by
  unfold createModeConflict at h
  simp only [bind_eqM, M.bind_ok] at h
  obtain ⟨s1, path, h1, s2, ic, h2, s3, ob, h3, s4, u4, h4, s5, u5, h5, s6, o6, h6,
    s7, w3, h7, s8, o8, h8, s9, u9, h9, s10, u10, h10, s11, o11, h11,
    s12, o12, h12, s13, u13, h13, s14, u14, h14, s15, o15, h15, hp⟩ := h
  have e1 : s1.git = s.git :=
    unwrapOrElse_gitPres
      (MGitPres.bindGit genWordM_gitPres (fun w => MGitPres.pureGit _)) s s1 _ h1
  have e2 : s2.git = s1.git :=
    unwrapOrElse_gitPres
      (MGitPres.bindGit genWordM_gitPres (fun w => MGitPres.pureGit _)) s1 s2 _ h2
  rw [getCurrentBranch_eq] at h3
  obtain ⟨h3s, h3v⟩ := Prod.mk.injEq .. ▸ h3
  have hob : ob = s.git.current := by
    rw [← Except.ok.inj h3v, e2, e1]
  have hcur : s12.git.current = ob := runGit_checkout_current h12
  have c13 : s13.git.current = s12.git.current :=
    (createFile_treeOnly _ _).curPres s12 s13 _ h13
  have c14 : s14.git.current = s13.git.current := gitAddSrc_curPres s13 s14 _ h14
  have c15 : s15.git.current = s14.git.current := runGit_commit_curPres _ s14 s15 _ h15
  obtain ⟨hps, _⟩ := Prod.mk.injEq .. ▸ hp
  rw [← hps, c15, c14, c13, hcur, hob]

theorem createWhitespaceConflict_restores {fp c : Option String} {s s' : Sim}
    (h : createWhitespaceConflict fp c s = (s', .ok ())) :
    s'.git.current = s.git.current := by
  unfold createWhitespaceConflict at h
  simp only [bind_eqM, M.bind_ok] at h
  obtain ⟨s1, path, h1, s2, ob, h2, s3, u3, h3, s4, u4, h4, s5, o5, h5,
    s6, w2, h6, s7, o7, h7, s8, u8, h8, s9, u9, h9, s10, o10, h10,
    s11, o11, h11, s12, u12, h12, s13, u13, h13, s14, o14, h14, hp⟩ := h
  have e1 : s1.git = s.git :=
    unwrapOrElse_gitPres
      (MGitPres.bindGit genWordM_gitPres (fun w => MGitPres.pureGit _)) s s1 _ h1
  rw [getCurrentBranch_eq] at h2
  obtain ⟨h2s, h2v⟩ := Prod.mk.injEq .. ▸ h2
  have hob : ob = s.git.current := by
    rw [← Except.ok.inj h2v, e1]
  have hcur : s11.git.current = ob := runGit_checkout_current h11
  have c12 : s12.git.current = s11.git.current :=
    (createFile_treeOnly _ _).curPres s11 s12 _ h12
  have c13 : s13.git.current = s12.git.current := gitAddSrc_curPres s12 s13 _ h13
  have c14 : s14.git.current = s13.git.current := runGit_commit_curPres _ s13 s14 _ h14
  obtain ⟨hps, _⟩ := Prod.mk.injEq .. ▸ hp
  rw [← hps, c14, c13, c12, hcur, hob]

theorem createCaseConflict_restores {fp c : Option String} {s s' : Sim}
    (h : createCaseConflict fp c s = (s', .ok ())) :
    s'.git.current = s.git.current := by
  unfold createCaseConflict at h
  simp only [bind_eqM, M.bind_ok] at h
  obtain ⟨s1, bn, h1, s2, ic, h2, s3, ob, h3, s4, u4, h4, s5, u5, h5, s6, o6, h6,
    s7, w2, h7, s8, o8, h8, s9, u9, h9, s10, u10, h10, s11, u11, h11,
    s12, o12, h12, s13, o13, h13, s14, u14, h14, s15, u15, h15, s16, u16, h16,
    s17, o17, h17, hp⟩ := h
  have e1 : s1.git = s.git :=
    unwrapOrElse_gitPres
      (MGitPres.bindGit genWordM_gitPres (fun w => MGitPres.pureGit _)) s s1 _ h1
  have e2 : s2.git = s1.git :=
    unwrapOrElse_gitPres (genContentM_gitPres 3 1) s1 s2 _ h2
  rw [getCurrentBranch_eq] at h3
  obtain ⟨h3s, h3v⟩ := Prod.mk.injEq .. ▸ h3
  have hob : ob = s.git.current := by
    rw [← Except.ok.inj h3v, e2, e1]
  have hcur : s13.git.current = ob := runGit_checkout_current h13
  have c14 : s14.git.current = s13.git.current :=
    (fsRename_treeOnly _ _).curPres s13 s14 _ h14
  have c15 : s15.git.current = s14.git.current :=
    (fsRename_treeOnly _ _).curPres s14 s15 _ h15
  have c16 : s16.git.current = s15.git.current := gitAddSrc_curPres s15 s16 _ h16
  have c17 : s17.git.current = s16.git.current := runGit_commit_curPres _ s16 s17 _ h17
  obtain ⟨hps, _⟩ := Prod.mk.injEq .. ▸ hp
  rw [← hps, c17, c16, c15, c14, hcur, hob]

theorem createStructuralConflict_restores {fp c : Option String} {s s' : Sim}
    (h : createStructuralConflict fp c s = (s', .ok ())) :
    s'.git.current = s.git.current := by
  unfold createStructuralConflict at h
  simp only [bind_eqM, M.bind_ok] at h
  obtain ⟨s1, ic, h1, s2, ob, h2, s3, u3, h3, s4, u4, h4, s5, o5, h5,
    s6, w, h6, s7, o7, h7, s8, w2, h8, s9, u9, h9, s10, u10, h10, s11, o11, h11,
    s12, o12, h12, s13, ex, h13, s14, u14, h14, s15, u15, h15, s16, o16, h16, hp⟩ := h
  have e1 : s1.git = s.git :=
    unwrapOrElse_gitPres (genContentM_gitPres 3 1) s s1 _ h1
  rw [getCurrentBranch_eq] at h2
  obtain ⟨h2s, h2v⟩ := Prod.mk.injEq .. ▸ h2
  have hob : ob = s.git.current := by
    rw [← Except.ok.inj h2v, e1]
  have hcur : s12.git.current = ob := runGit_checkout_current h12
  have e13 : s13.git = s12.git := genContentM_gitPres 2 1 s12 s13 _ h13
  have c14 : s14.git.current = s13.git.current :=
    (createFile_treeOnly _ _).curPres s13 s14 _ h14
  have c15 : s15.git.current = s14.git.current := gitAddSrc_curPres s14 s15 _ h15
  have c16 : s16.git.current = s15.git.current := runGit_commit_curPres _ s15 s16 _ h16
  obtain ⟨hps, _⟩ := Prod.mk.injEq .. ▸ hp
  rw [← hps, c16, c15, c14, e13, hcur, hob]

/-- C4: for every one of the nine conflict topology builders, if the builder
(run through the `conflict` dispatcher on any state, i.e. on any starting
branch and any random outcome) returns successfully, then the branch that
was current when it was called is again the current branch on return. -/
theorem conflict_restores_original_branch (fp c : Option String) (ct : ConflictType)
    (s : Sim) (h : (conflictOp fp c ct s).2 = Except.ok ()) :
    (conflictOp fp c ct s).1.git.current = s.git.current := by
  have hpair : conflictOp fp c ct s = ((conflictOp fp c ct s).1, Except.ok ()) := by
    rw [← h]
  cases ct
  case content => exact createContentConflict_restores hpair
  case deleteModify => exact createDeleteModifyConflict_restores hpair
  case rename => exact createRenameConflict_restores hpair
  case addAdd => exact createAddAddConflict_restores hpair
  case binary => exact @createBinaryConflict_restores fp c s _ hpair
  case mode => exact createModeConflict_restores hpair
  case whitespace => exact createWhitespaceConflict_restores hpair
  case case => exact createCaseConflict_restores hpair
  case structural => exact createStructuralConflict_restores hpair

deriving instance DecidableEq for Except

/-- A concrete oracle (all numeric draws 0, all coins true) and start state
for witnesses: an initialized repository on branch `main` with one-word
corpus. -/
def sampleOracle : Oracle where
  nats := fun _ => 0
  coins := fun _ => true

def sampleSim0 : Sim where
  tool := { home_branch := "main", verbose := false, command_count := 0,
            words := ["apple"] }
  git := { branches := [("main", [])], current := "main", workTree := [], index := [] }
  oracle := sampleOracle
  nidx := 0
  cidx := 0

theorem conflict_restores_original_branch_witness :
    (conflictOp (some "f.txt") (some "base") ConflictType.content sampleSim0).2 =
      Except.ok () ∧
    (conflictOp (some "f.txt") (some "base") ConflictType.content sampleSim0).1.git.current =
      sampleSim0.git.current :=
  ⟨by decide, conflict_restores_original_branch _ _ _ _ (by decide)⟩

/-!  ## Claim C5: the invocation counter counts attempted calls -/

/-- Run a sequence of external git invocations in order, keeping the state
of each attempt (successful or failed). -/
def runGitSeq (argss : List (List String)) (s : Sim) : Sim :=
  argss.foldl (fun t args => (runGit args t).1) s

/-- C5: every `run_git` call increments the invocation counter by exactly
one — the bump precedes the subprocess and is kept on failure as well — so
after any sequence of calls the counter equals the starting value plus the
number of attempted calls, failed ones included. -/
theorem runGit_counts_attempts :
    (∀ args s, (runGit args s).1.tool.command_count = s.tool.command_count + 1) ∧
    (∀ argss s, (runGitSeq argss s).tool.command_count =
      s.tool.command_count + argss.length) := by
  constructor
  · exact runGit_count
  · intro argss
    induction argss with
    | nil => intro s; rfl
    | cons a as ih =>
      intro s
      show (runGitSeq as (runGit a s).1).tool.command_count = _
      rw [ih, runGit_count, List.length_cons]
      omega

/-!  ## Claim C8: the placeholder operations cannot fail -/

/-- C8: `merge`, `munge` and `rebase` are placeholders: on every state of
the repository and the tool they succeed (printing only a notice) and leave
the state untouched; none of them can fail. -/
theorem placeholders_never_fail :
    ∀ s : Sim, mergeOp s = (s, Except.ok ()) ∧ mungeOp s = (s, Except.ok ()) ∧
      rebaseOp s = (s, Except.ok ()) :=
  fun _ => ⟨rfl, rfl, rfl⟩

/-!  ## Claim C1: the binary-conflict byte patterns -/

/-- C1 counterexample: the claim says the original branch rewrites the blob
so that byte[i] = i·7 for every i < 50, but the `as u8` cast wraps: at
index 37 the written byte is 3, not 37·7 = 259. -/
theorem binary_conflict_bytes_counterexample :
    binaryData3.getD 37 0 = 3 ∧ ¬ binaryData3.getD 37 0 = 37 * 7 := by decide

/-- C1 (amended): all three binary-conflict files are exactly 50 bytes;
the ancestor has byte[i] = i·3 and the conflict branch byte[i] = i·5
(both below 256 for i < 50), while the original branch has
byte[i] = (i·7) mod 256, which differs from i·7 for i ≥ 37. -/
theorem binary_conflict_bytes (i : Nat) (h : i < 50) :
    binaryData1.length = 50 ∧ binaryData2.length = 50 ∧ binaryData3.length = 50 ∧
    binaryData1.getD i 0 = i * 3 ∧ binaryData2.getD i 0 = i * 5 ∧
    binaryData3.getD i 0 = i * 7 % 256 := by
  refine ⟨by decide, by decide, by decide, ?_, ?_, ?_⟩
  · unfold binaryData1
    rw [List.getD_eq_getElem?_getD, List.getElem?_map, List.getElem?_range h]
    show i * 3 % 256 = i * 3
    exact Nat.mod_eq_of_lt (by omega)
  · unfold binaryData2
    rw [List.getD_eq_getElem?_getD, List.getElem?_map, List.getElem?_range h]
    show i * 5 % 256 = i * 5
    exact Nat.mod_eq_of_lt (by omega)
  · unfold binaryData3
    rw [List.getD_eq_getElem?_getD, List.getElem?_map, List.getElem?_range h]
    rfl

theorem binary_conflict_bytes_witness :
    (40 : Nat) < 50 ∧
    (binaryData1.length = 50 ∧ binaryData2.length = 50 ∧ binaryData3.length = 50 ∧
      binaryData1.getD 40 0 = 40 * 3 ∧ binaryData2.getD 40 0 = 40 * 5 ∧
      binaryData3.getD 40 0 = 40 * 7 % 256) :=
  ⟨by decide, binary_conflict_bytes 40 (by decide)⟩

/-!  ## Claim C9: generated paths start with the requested prefix -/

theorem genWordsS_length (n : Nat) (s : Sim) : (genWordsS n s).1.length = n := by
  induction n generalizing s with
  | zero => rfl
  | succ k ih =>
    show ((genWordS s).1 :: (genWordsS k (genWordS s).2).1).length = k + 1
    rw [List.length_cons, ih]

/-- C9 counterexample: with depth bounds (0, 0) — zero path segments drawn —
the generated path is the single component `custom.txt`: the `.txt`
extension is appended to the prefix itself, so the path does not begin with
the component `custom`. -/
theorem gen_filepath_prefix_counterexample :
    ((genFilepathS 0 0 (some "custom") sampleSim0).1).head? = some "custom.txt" ∧
    ¬ ((genFilepathS 0 0 (some "custom") sampleSim0).1).head? = some "custom" := by
  decide

/-- C9 (amended): for every non-empty prefix and every depth bound with
minimum depth at least 1 (so that at least one word segment is drawn, as
all call sites do), the generated file path begins with the prefix as its
first path component, for every random outcome. -/
theorem gen_filepath_prefix (maxd mind : Nat) (p : String) (s : Sim)
    (hm : 1 ≤ mind) (hp : p ≠ "") :
    ((genFilepathS maxd mind (some p) s).1).head? = some p := by
  show (addTxtExt ((if p = "" then [] else [p]) ++
    (genWordsS (drawNat mind maxd s).1 (drawNat mind maxd s).2).1)).head? = some p
  rw [if_neg hp]
  have hd : 1 ≤ (drawNat mind maxd s).1 := Nat.le_trans hm (Nat.le_add_right mind _)
  rcases hw : (genWordsS (drawNat mind maxd s).1 (drawNat mind maxd s).2).1 with _ | ⟨w, rest⟩
  · exfalso
    have := genWordsS_length (drawNat mind maxd s).1 (drawNat mind maxd s).2
    rw [hw] at this
    simp at this
    omega
  · rcases hg : (p :: w :: rest).getLast? with _ | last
    · simp at hg
    · show (addTxtExt (p :: w :: rest)).head? = some p
      unfold addTxtExt
      rw [hg, List.dropLast_cons₂]
      rfl

theorem gen_filepath_prefix_witness :
    ((1 : Nat) ≤ 1 ∧ "custom" ≠ "") ∧
    ((genFilepathS 3 1 (some "custom") sampleSim0).1).head? = some "custom" :=
  ⟨⟨by decide, by decide⟩, gen_filepath_prefix 3 1 "custom" sampleSim0 (by decide) (by decide)⟩

/-!  ## Claim C2: out-of-range modify fails without writing -/

/-- C2: `modify` on a file whose explicit 1-based line number lies outside
`[1, lineCount]` (the empty file counting as one empty line) fails with the
out-of-range error and performs no write at all: the returned state is the
input state, so the file — indeed the whole tracked tree — is unchanged. -/
theorem modify_out_of_range (s : Sim) (p : String) (n : Nat) (mt : ModifyType)
    (c : Str) (mo : Nat)
    (hf : lookupA s.git.workTree p = some ⟨.textFile c, mo⟩)
    (hn : n = 0 ∨ n > lineCountF c) :
    modifyOp (some p) (some n) mt s = (s, .error (.outOfRange n (lineCountF c))) := by
  have hread : fsReadToString p s = (s, .ok c) := by
    unfold fsReadToString
    rw [hf]
  have hcond : n = 0 ∨ n > (modifyLines c).length := hn
  unfold modifyOp modifyTarget modifyLineIdx
  simp only [bind_eqM, M.bind, pure_eqM, hread, if_pos hcond]
  rfl

def sampleSimC2 : Sim :=
  { sampleSim0 with git :=
    { sampleSim0.git with workTree := [("f.txt", ⟨.textFile "a".data, 420⟩)] } }

theorem modify_out_of_range_witness :
    (lookupA sampleSimC2.git.workTree "f.txt" = some ⟨.textFile "a".data, 420⟩ ∧
      ((5 : Nat) = 0 ∨ 5 > lineCountF "a".data)) ∧
    modifyOp (some "f.txt") (some 5) ModifyType.append sampleSimC2 =
      (sampleSimC2, .error (.outOfRange 5 (lineCountF "a".data))) :=
  ⟨⟨by decide, by decide⟩,
    modify_out_of_range sampleSimC2 "f.txt" 5 ModifyType.append "a".data 420
      (by decide) (by decide)⟩

/-!  ## Claim C7: three random files from an empty root -/

/-- The sequence of random paths drawn by `create(count, None, None)`:
each iteration draws one path (`gen_filepath(3, 1, None)`) and then one
content block (`gen_content(5, 1)`), exactly as `createLoop` does. -/
def createdPaths : Nat → Sim → List String
  | 0, _ => []
  | n + 1, s =>
    pathToString (genFilepathS 3 1 none s).1 ::
      createdPaths n (genContentS 5 1 (genFilepathS 3 1 none s).2).2

/-- Key insertion as `fs::write` produces it: an existing key stays in
place, a fresh key is appended. -/
def insertKey (ks : List String) (p : String) : List String :=
  if p ∈ ks then ks else ks ++ [p]

def insertKeys (ks : List String) (ps : List String) : List String :=
  ps.foldl insertKey ks

theorem createdPaths_gitIndep (n : Nat) : ∀ (s : Sim) (g : GitState),
    createdPaths n { s with git := g } = createdPaths n s := by
  induction n with
  | zero => intro s g; rfl
  | succ k ih =>
    intro s g
    show pathToString (genFilepathS 3 1 none { s with git := g }).1 ::
      createdPaths k (genContentS 5 1 (genFilepathS 3 1 none { s with git := g }).2).2 = _
    rw [(genFilepathS_drawFn 3 1 none s).2 g]
    show pathToString (genFilepathS 3 1 none s).1 ::
      createdPaths k (genContentS 5 1
        { (genFilepathS 3 1 none s).2 with git := g }).2 = _
    rw [(genContentS_drawFn 5 1 ((genFilepathS 3 1 none s).2)).2 g]
    show pathToString (genFilepathS 3 1 none s).1 ::
      createdPaths k { (genContentS 5 1 (genFilepathS 3 1 none s).2).2 with git := g } = _
    rw [ih]
    rfl

theorem createdPaths_length (n : Nat) : ∀ s : Sim, (createdPaths n s).length = n := by
  induction n with
  | zero => intro s; rfl
  | succ k ih =>
    intro s
    show (_ :: _).length = k + 1
    rw [List.length_cons, ih]

theorem lookupA_eq_none_iff {β : Type} (t : List (String × β)) (p : String) :
    lookupA t p = none ↔ p ∉ keysA t := by
  induction t with
  | nil => simp [lookupA, keysA]
  | cons kv rest ih =>
    rcases kv with ⟨k, v⟩
    unfold lookupA keysA
    simp only [List.mem_cons]
    by_cases hk : k = p
    · subst hk
      simp
    · rw [if_neg hk, ih]
      constructor
      · intro h hor
        rcases hor with h' | h'
        · exact hk h'.symm
        · exact h h'
      · intro h h'
        exact h (Or.inr h')

theorem lookupA_isSome_iff {β : Type} (t : List (String × β)) (p : String) :
    (lookupA t p).isSome ↔ p ∈ keysA t := by
  rcases h : lookupA t p with _ | v
  · rw [(lookupA_eq_none_iff t p).mp h |> iff_false_intro]
    simp
  · simp only [Option.isSome_some, true_iff]
    by_contra hmem
    rw [(lookupA_eq_none_iff t p).mpr hmem] at h
    simp at h

theorem keysA_setA {β : Type} (t : List (String × β)) (p : String) (v : β) :
    keysA (setA t p v) = insertKey (keysA t) p := by
  unfold insertKey
  induction t with
  | nil => simp [setA, keysA]
  | cons kv rest ih =>
    rcases kv with ⟨k, w⟩
    unfold setA keysA
    by_cases hk : k = p
    · subst hk
      rw [if_pos rfl, if_pos (List.mem_cons_self _ _)]
    · rw [if_neg hk]
      show k :: keysA (setA rest p v) = _
      rw [ih]
      by_cases hp : p ∈ keysA rest
      · rw [if_pos hp, if_pos (List.mem_cons.mpr (Or.inr hp))]
      · rw [if_neg hp, if_neg ?_]
        · rfl
        · intro hmem
          rcases List.mem_cons.mp hmem with h' | h'
          · exact hk h'.symm
          · exact hp h'

theorem keysA_writeEntry (t : FsTree) (p : String) (d : FileData) :
    keysA (writeEntry t p d) = insertKey (keysA t) p := by
  unfold writeEntry
  rcases h : lookupA t p with _ | e
  · exact keysA_setA t p _
  · exact keysA_setA t p _

theorem insertKeys_of_disjoint : ∀ (ps ks : List String), ps.Nodup →
    (∀ p ∈ ps, p ∉ ks) → insertKeys ks ps = ks ++ ps := by
  intro ps
  induction ps with
  | nil => intro ks _ _; simp [insertKeys]
  | cons q rest ih =>
    intro ks hnd hdis
    show insertKeys (insertKey ks q) rest = _
    unfold insertKey
    rw [if_neg (hdis q (List.mem_cons_self _ _))]
    rw [ih (ks ++ [q]) (List.nodup_cons.mp hnd).2 ?_]
    · simp
    · intro p hp
      simp only [List.mem_append, List.mem_singleton]
      push_neg
      refine ⟨hdis p (List.mem_cons.mpr (Or.inr hp)), ?_⟩
      intro he
      exact (List.nodup_cons.mp hnd).1 (he ▸ hp)

theorem createLoop_none_succ (n : Nat) (s : Sim) :
    createLoop none none (n + 1) s =
      createLoop none none n
        { (genContentS 5 1 (genFilepathS 3 1 none s).2).2 with git :=
          { (genContentS 5 1 (genFilepathS 3 1 none s).2).2.git with workTree :=
            (writeEntry (genContentS 5 1 (genFilepathS 3 1 none s).2).2.git.workTree
              (pathToString (genFilepathS 3 1 none s).1)
              (.textFile (genContentS 5 1 (genFilepathS 3 1 none s).2).1)) } } := rfl

theorem createLoop_keys (n : Nat) : ∀ s : Sim,
    (createLoop none none n s).2 = .ok () ∧
    keysA (createLoop none none n s).1.git.workTree =
      insertKeys (keysA s.git.workTree) (createdPaths n s) := by
  induction n with
  | zero => intro s; exact ⟨rfl, rfl⟩
  | succ k ih =>
    intro s
    rw [createLoop_none_succ]
    refine ⟨(ih _).1, ?_⟩
    rw [(ih _).2]
    obtain ⟨n1, e1⟩ := (genFilepathS_drawFn 3 1 none s).1
    obtain ⟨n2, e2⟩ := (genContentS_drawFn 5 1 ((genFilepathS 3 1 none s).2)).1
    have hs2git : (genContentS 5 1 (genFilepathS 3 1 none s).2).2.git = s.git := by
      rw [e2, e1]
    show insertKeys
        (keysA (writeEntry (genContentS 5 1 (genFilepathS 3 1 none s).2).2.git.workTree
          (pathToString (genFilepathS 3 1 none s).1)
          (.textFile (genContentS 5 1 (genFilepathS 3 1 none s).2).1)))
        (createdPaths k { (genContentS 5 1 (genFilepathS 3 1 none s).2).2 with git :=
          { (genContentS 5 1 (genFilepathS 3 1 none s).2).2.git with workTree :=
            (writeEntry (genContentS 5 1 (genFilepathS 3 1 none s).2).2.git.workTree
              (pathToString (genFilepathS 3 1 none s).1)
              (.textFile (genContentS 5 1 (genFilepathS 3 1 none s).2).1)) } }) =
      insertKeys (keysA s.git.workTree) (createdPaths (k + 1) s)
    rw [createdPaths_gitIndep, keysA_writeEntry, hs2git]
    rfl

/-- C7 counterexample: starting from an empty tracked root, with the random
draws all equal (constant oracle, one-word corpus) the three `create`
iterations draw the same path `apple.txt` three times, so listing the
tracked files yields one path, not three — the claim fails for this
outcome of the random path draws. -/
theorem create_three_distinct_counterexample :
    (createOp 3 none none sampleSim0).2 = .ok () ∧
    (findFilesInSrc (createOp 3 none none sampleSim0).1).2 = .ok ["apple.txt"] ∧
    ¬ (keysA (createOp 3 none none sampleSim0).1.git.workTree).length = 3 := by
  decide

/-- C7 (amended): starting from an empty tracked root, `create 3` always
succeeds and the tracked files afterwards are exactly the paths drawn, in
draw order; in particular, whenever the three drawn paths are pairwise
distinct, listing the tracked root yields exactly 3 distinct paths, each of
which exists as a regular file. -/
theorem create_three_distinct (s : Sim) (h0 : s.git.workTree = [])
    (hnd : (createdPaths 3 s).Nodup) :
    (createOp 3 none none s).2 = .ok () ∧
    keysA (createOp 3 none none s).1.git.workTree = createdPaths 3 s ∧
    (createdPaths 3 s).length = 3 ∧
    ∀ p ∈ createdPaths 3 s, (lookupA (createOp 3 none none s).1.git.workTree p).isSome := by
  have hrun := createLoop_keys 3 s
  have hops : createOp 3 none none s = createLoop none none 3 s := rfl
  have hkeys : keysA (createOp 3 none none s).1.git.workTree = createdPaths 3 s := by
    rw [hops, hrun.2, h0]
    show insertKeys [] (createdPaths 3 s) = _
    rw [insertKeys_of_disjoint _ _ hnd (fun p _ hc => by simp at hc)]
    rfl
  refine ⟨by rw [hops]; exact hrun.1, hkeys, createdPaths_length 3 s, ?_⟩
  intro p hp
  rw [lookupA_isSome_iff, hkeys]
  exact hp

/-- A start state for the C7 witness: empty tracked root, an 8-word corpus
and the identity numeric oracle, under which the three drawn paths are
pairwise distinct. -/
def sampleSimC7 : Sim where
  tool := { home_branch := "main", verbose := false, command_count := 0,
            words := ["aa", "bb", "cc", "dd", "ee", "ff", "gg", "hh"] }
  git := { branches := [("main", [])], current := "main", workTree := [], index := [] }
  oracle := { nats := fun i => i, coins := fun _ => true }
  nidx := 0
  cidx := 0

theorem create_three_distinct_witness :
    (sampleSimC7.git.workTree = [] ∧ (createdPaths 3 sampleSimC7).Nodup) ∧
    ((createOp 3 none none sampleSimC7).2 = .ok () ∧
      keysA (createOp 3 none none sampleSimC7).1.git.workTree = createdPaths 3 sampleSimC7 ∧
      (createdPaths 3 sampleSimC7).length = 3 ∧
      ∀ p ∈ createdPaths 3 sampleSimC7,
        (lookupA (createOp 3 none none sampleSimC7).1.git.workTree p).isSome) :=
  ⟨⟨by decide, by decide⟩, create_three_distinct sampleSimC7 (by decide) (by decide)⟩

/-!  ## getLast? facts for the modify edit -/

theorem getLast?_cons_of_ne_nil {α : Type} (a : α) {l : List α} (h : l ≠ []) :
    (a :: l).getLast? = l.getLast? := by
  cases l with
  | nil => exact absurd rfl h
  | cons b t => exact List.getLast?_cons_cons

theorem getLast?_drop_of_ne_nil {α : Type} {k : Nat} {L : List α} (h : L.drop k ≠ []) :
    (L.drop k).getLast? = L.getLast? := by
  conv_rhs => rw [← List.take_append_drop k L]
  rw [List.getLast?_append_of_ne_nil _ h]

theorem getLast?_insertIdx {α : Type} :
    ∀ (n : Nat) (m : α) (L : List α), n ≤ L.length →
      (L.insertIdx n m).getLast? = if n = L.length then some m else L.getLast?
  | 0, m, [], _ => by simp
  | 0, m, a :: L, _ => by
    rw [List.insertIdx_zero, getLast?_cons_of_ne_nil m (List.cons_ne_nil a L),
      if_neg (by simp)]
  | n + 1, m, [], h => by simp at h
  | n + 1, m, a :: L, h => by
    rw [List.insertIdx_succ_cons]
    have hlen : n ≤ L.length := Nat.le_of_succ_le_succ h
    have hne : L.insertIdx n m ≠ [] := by
      intro h0
      have hli := @List.length_insertIdx _ m n L hlen
      rw [h0] at hli
      simp at hli
    rw [getLast?_cons_of_ne_nil a hne, getLast?_insertIdx n m L hlen]
    by_cases hn : n = L.length
    · rw [if_pos hn, if_pos (by simp [hn])]
    · rw [if_neg hn, if_neg (by simpa using hn)]
      cases L with
      | nil =>
        simp at hlen
        exact absurd hlen (by simpa using hn)
      | cons b t => exact (List.getLast?_cons_cons).symm

theorem getLast?_set {α : Type} (n : Nat) (v : α) (L : List α) (h : n < L.length) :
    (L.set n v).getLast? = if n + 1 = L.length then some v else L.getLast? := by
  rw [List.set_eq_take_cons_drop v h]
  by_cases he : n + 1 = L.length
  · rw [List.drop_eq_nil_of_le (Nat.le_of_eq he.symm), if_pos he, List.getLast?_concat]
  · have hd : L.drop (n + 1) ≠ [] := by
      intro h0
      have hl := List.length_drop (n + 1) L
      rw [h0] at hl
      simp at hl
      omega
    rw [List.getLast?_append_cons, getLast?_cons_of_ne_nil v hd,
      getLast?_drop_of_ne_nil hd, if_neg he]

theorem rustLines_nl_free (c : Str) : ∀ l ∈ rustLines c, '\n' ∉ l := by
  unfold rustLines
  split
  · intro l hl
    simp at hl
  · intro l hl
    obtain ⟨x, hx, hxe⟩ := List.mem_map.mp hl
    rw [← hxe]
    exact stripCR_nl_free (splitNL_nl_free hx)

theorem modifyLines_nl_free (c : Str) : ∀ l ∈ modifyLines c, '\n' ∉ l := by
  unfold modifyLines
  split
  · intro l hl
    simp at hl
    simp [hl]
  · exact rustLines_nl_free c

/-!  ## Corpus invariants and the generated modification line -/

/-- The invariant `load_words` establishes for the word corpus: non-empty,
and every word a non-empty single line (the loader filters empty lines and
lowercases dictionary words; the built-in fallback satisfies this too). -/
def corpusOk (ws : List String) : Prop :=
  ws ≠ [] ∧ ∀ w ∈ ws, w.data ≠ [] ∧ '\n' ∉ w.data

instance corpusOk_decidable (ws : List String) : Decidable (corpusOk ws) := by
  unfold corpusOk
  infer_instance

theorem genWordS_mem (s : Sim) (h : s.tool.words ≠ []) :
    (genWordS s).1 ∈ s.tool.words := by
  show s.tool.words.getD _ "" ∈ s.tool.words
  have hlen : 0 < s.tool.words.length := List.length_pos.mpr h
  rw [List.getD_eq_getElem s.tool.words "" (Nat.mod_lt _ hlen)]
  exact List.getElem_mem _

theorem genWordsS_mem (n : Nat) : ∀ (s : Sim), s.tool.words ≠ [] →
    ∀ w ∈ (genWordsS n s).1, w ∈ s.tool.words := by
  induction n with
  | zero => intro s _ w hw; simp [genWordsS] at hw
  | succ k ih =>
    intro s hs w hw
    rcases List.mem_cons.mp hw with h' | h'
    · rw [h']
      exact genWordS_mem s hs
    · exact ih (genWordS s).2 hs w h'

theorem joinSep_ne_nil {sep : Str} :
    ∀ {L : List Str}, L ≠ [] → (∀ l ∈ L, l ≠ []) → joinSep sep L ≠ []
  | [], h, _ => absurd rfl h
  | [x], _, hx => by
    show x ≠ []
    exact hx x (List.mem_singleton_self x)
  | x :: y :: ls, _, hx => by
    show (x ++ sep) ++ joinSep sep (y :: ls) ≠ []
    intro h0
    have hxnil : x = [] := (List.append_eq_nil.mp (List.append_eq_nil.mp h0).1).1
    exact hx x (List.mem_cons_self _ _) hxnil

theorem mem_joinSep {sep : Str} {ch : Char} :
    ∀ {L : List Str}, ch ∈ joinSep sep L → ch ∈ sep ∨ ∃ l ∈ L, ch ∈ l
  | [], h => by simp [joinSep] at h
  | [x], h => Or.inr ⟨x, List.mem_singleton_self x, h⟩
  | x :: y :: ls, h => by
    rcases List.mem_append.mp h with h' | h'
    · rcases List.mem_append.mp h' with h'' | h''
      · exact Or.inr ⟨x, List.mem_cons_self _ _, h''⟩
      · exact Or.inl h''
    · rcases mem_joinSep h' with h'' | ⟨l, hl, hc⟩
      · exact Or.inl h''
      · exact Or.inr ⟨l, List.mem_cons.mpr (Or.inr hl), hc⟩

/-- The single line `gen_content(1, 1)` produces from a well-formed corpus
is non-empty and newline-free. -/
theorem genContentS11_props (s : Sim) (hc : corpusOk s.tool.words) :
    (genContentS 1 1 s).1 ≠ [] ∧ '\n' ∉ (genContentS 1 1 s).1 := by
  obtain ⟨hne, hwords⟩ := hc
  have hlc : (drawNat 1 1 s).1 = 1 := by
    show 1 + (drawRaw s).1 % (1 + 1 - 1) = 1
    simp [Nat.mod_one]
  have hcontent : (genContentS 1 1 s).1 =
      joinSep "\n".data
        (genLinesS (drawNat 1 1 s).1 (drawNat 1 8 (drawNat 1 1 s).2).1
          (drawNat 1 8 (drawNat 1 1 s).2).2).1 := rfl
  rw [hcontent, hlc]
  have hline : (genLinesS 1 (drawNat 1 8 (drawNat 1 1 s).2).1
      (drawNat 1 8 (drawNat 1 1 s).2).2).1 =
      [(genLineS (drawNat 1 8 (drawNat 1 1 s).2).1 (drawNat 1 8 (drawNat 1 1 s).2).2).1] :=
    rfl
  rw [hline]
  show joinSep "\n".data [_] ≠ [] ∧ '\n' ∉ joinSep "\n".data [_]
  have hjoin : ∀ l : Str, joinSep "\n".data [l] = l := fun l => rfl
  rw [hjoin]
  -- the single line: wpl ≥ 1 words joined by spaces
  set s2 := (drawNat 1 8 (drawNat 1 1 s).2).2 with hs2
  set wpl := (drawNat 1 8 (drawNat 1 1 s).2).1 with hwpl
  have hs2tool : s2.tool = s.tool := rfl
  have hwplpos : 1 ≤ wpl := Nat.le_add_right 1 _
  have hwsne : (genWordsS wpl s2).1 ≠ [] := by
    intro h0
    have := genWordsS_length wpl s2
    rw [h0] at this
    simp at this
    omega
  have hmem : ∀ w ∈ (genWordsS wpl s2).1, w ∈ s.tool.words := by
    intro w hw
    have := genWordsS_mem wpl s2 (by rw [hs2tool]; exact hne) w hw
    rw [hs2tool] at this
    exact this
  constructor
  · show joinSep " ".data ((genWordsS wpl s2).1.map String.data) ≠ []
    apply joinSep_ne_nil
    · intro h0
      exact hwsne (List.map_eq_nil_iff.mp h0)
    · intro l hl
      obtain ⟨w, hw, hwe⟩ := List.mem_map.mp hl
      rw [← hwe]
      exact (hwords w (hmem w hw)).1
  · show '\n' ∉ joinSep " ".data ((genWordsS wpl s2).1.map String.data)
    intro hch
    rcases mem_joinSep hch with h' | ⟨l, hl, hc'⟩
    · simp at h'
    · obtain ⟨w, hw, hwe⟩ := List.mem_map.mp hl
      rw [← hwe] at hc'
      exact (hwords w (hmem w hw)).2 hc'

/-!  ## Decomposition of a successful modify -/

theorem fsReadToString_ok {p : String} {s s' : Sim} {c : Str}
    (h : fsReadToString p s = (s', .ok c)) :
    s' = s ∧ ∃ mo, lookupA s.git.workTree p = some ⟨.textFile c, mo⟩ := by
  unfold fsReadToString at h
  split at h
  case _ e heq =>
    split at h
    case _ c' hd =>
      obtain ⟨h1, h2⟩ := Prod.mk.injEq .. ▸ h
      cases Except.ok.inj h2
      refine ⟨h1.symm, e.mode, ?_⟩
      rw [heq, ← hd]
    case _ bs hd => exact absurd (Prod.mk.injEq .. ▸ h).2 (by simp)
  case _ heq => exact absurd (Prod.mk.injEq .. ▸ h).2 (by simp)

theorem lookupA_setA_self {β : Type} :
    ∀ (t : List (String × β)) (p : String) (v : β), lookupA (setA t p v) p = some v
  | [], p, v => by simp [setA, lookupA]
  | (k, w) :: t, p, v => by
    unfold setA
    by_cases hk : k = p
    · rw [if_pos hk]
      show lookupA ((k, v) :: t) p = some v
      unfold lookupA
      rw [if_pos hk]
    · rw [if_neg hk]
      show lookupA ((k, w) :: setA t p v) p = some v
      unfold lookupA
      rw [if_neg hk]
      exact lookupA_setA_self t p v

theorem lookupA_writeEntry_self (t : FsTree) (p : String) (d : FileData)
    {e : FileEntry} (he : lookupA t p = some e) :
    lookupA (writeEntry t p d) p = some ⟨d, e.mode⟩ := by
  unfold writeEntry
  rw [he]
  exact lookupA_setA_self t p _

/-- Operations that only consume random draws: the git state and the tool
fields are untouched. -/
def MDrawPres {α : Type} (x : M α) : Prop :=
  ∀ s s' r, x s = (s', r) → s'.git = s.git ∧ s'.tool = s.tool

theorem MDrawPres.pureDraw {α : Type} (a : α) : MDrawPres (pure a : M α) := by
  intro s s' r hr
  obtain ⟨h1, _⟩ := Prod.mk.injEq .. ▸ hr
  rw [← h1]
  exact ⟨rfl, rfl⟩

theorem MDrawPres.failDraw {α : Type} (e : GErr) : MDrawPres (M.fail e : M α) := by
  intro s s' r hr
  obtain ⟨h1, _⟩ := Prod.mk.injEq .. ▸ hr
  rw [← h1]
  exact ⟨rfl, rfl⟩

theorem MDrawPres.bindDraw {α β : Type} {x : M α} {f : α → M β}
    (hx : MDrawPres x) (hf : ∀ a, MDrawPres (f a)) : MDrawPres (x >>= f) := by
  intro s s' r hr
  rw [bind_eqM] at hr
  unfold M.bind at hr
  rcases h : x s with ⟨s₁, r₁⟩
  rw [h] at hr
  cases r₁ with
  | ok a =>
    obtain ⟨a1, a2⟩ := hx s s₁ _ h
    obtain ⟨b1, b2⟩ := hf a s₁ s' r hr
    exact ⟨b1.trans a1, b2.trans a2⟩
  | error e =>
    obtain ⟨h1, _⟩ := Prod.mk.injEq .. ▸ hr
    rw [← h1]
    exact hx s s₁ _ h

theorem DrawFn.drawPres {α : Type} {f : Sim → α × Sim} (h : DrawFn f) :
    MDrawPres (liftS f) := by
  intro s s' r hr
  rw [liftS_eq] at hr
  obtain ⟨h1, _⟩ := Prod.mk.injEq .. ▸ hr
  obtain ⟨⟨n, hd⟩, _⟩ := h s
  rw [← h1, hd]
  exact ⟨rfl, rfl⟩

theorem getRandomFile_drawPres : MDrawPres getRandomFile := by
  intro s s' r hr
  unfold getRandomFile at hr
  split at hr
  · obtain ⟨h1, _⟩ := Prod.mk.injEq .. ▸ hr
    rw [← h1]
    exact ⟨rfl, rfl⟩
  · obtain ⟨h1, _⟩ := Prod.mk.injEq .. ▸ hr
    rw [← h1]
    exact ⟨rfl, rfl⟩

/-- `modifyTarget` only consumes random draws. -/
theorem modifyTarget_drawPres (fp : Option String) : MDrawPres (modifyTarget fp) := by
  cases fp with
  | some fpv => exact MDrawPres.pureDraw fpv
  | none =>
    exact MDrawPres.bindDraw getRandomFile_drawPres (fun r => by
      cases r with
      | some f => exact MDrawPres.pureDraw f
      | none => exact MDrawPres.failDraw _)

/-- A successful `modifyLineIdx` returns an in-range 0-based index and, for
an explicit line number `n`, the index `n - 1` with `1 ≤ n ≤ len`. -/
theorem modifyLineIdx_ok {ln : Option Nat} {len : Nat} {s s' : Sim} {idx : Nat}
    (hpos : 0 < len) (h : modifyLineIdx ln len s = (s', .ok idx)) :
    s'.git = s.git ∧ s'.tool = s.tool ∧ idx < len ∧
      (∀ n, ln = some n → idx = n - 1 ∧ 1 ≤ n ∧ n ≤ len) := by
  unfold modifyLineIdx at h
  cases ln with
  | some n =>
    have h' : (if n = 0 ∨ n > len then M.fail (GErr.outOfRange n len)
      else pure (n - 1) : M Nat) s = (s', .ok idx) := h
    by_cases hc : n = 0 ∨ n > len
    · rw [if_pos hc] at h'
      exact absurd (Prod.mk.injEq .. ▸ h').2 (by simp [M.fail])
    · rw [if_neg hc] at h'
      obtain ⟨h3s, h3v⟩ := Prod.mk.injEq .. ▸ h' 
      push_neg at hc
      have hval := Except.ok.inj h3v
      refine ⟨by rw [← h3s], by rw [← h3s], by omega, ?_⟩
      intro n' hn'
      cases Option.some.inj hn'
      exact ⟨hval.symm, by omega, hc.2⟩
  | none =>
    have h' : liftS (drawNat 0 (len - 1)) s = (s', .ok idx) := h
    rw [liftS_eq] at h'
    obtain ⟨h3s, h3v⟩ := Prod.mk.injEq .. ▸ h'
    have hval := Except.ok.inj h3v
    have hd1 : (drawNat 0 (len - 1) s).2 = { s with nidx := s.nidx + 1 } := rfl
    refine ⟨?_, ?_, ?_, by intro n hn; simp at hn⟩
    · rw [← h3s, hd1]
    · rw [← h3s, hd1]
    · rw [← hval]
      show 0 + (drawRaw s).1 % (len - 1 + 1 - 0) < len
      have hsub : len - 1 + 1 - 0 = len := by omega
      rw [hsub]
      simp only [Nat.zero_add]
      exact Nat.mod_lt _ hpos

/-- Every successful `modify` picked some tracked text file, a line index
inside its line vector, drew a single line of text via `gen_content(1, 1)`
from the same corpus, and rewrote exactly that file with the edited line
vector joined by newlines. -/
theorem modifyOp_ok {fp : Option String} {ln : Option Nat} {mt : ModifyType}
    {s s' : Sim} (h : modifyOp fp ln mt s = (s', .ok ())) :
    ∃ p c mo idx sm,
      lookupA s.git.workTree p = some ⟨.textFile c, mo⟩ ∧
      idx < (modifyLines c).length ∧
      sm.tool = s.tool ∧
      (∀ q, fp = some q → p = q) ∧
      (∀ n, ln = some n → idx = n - 1 ∧ 1 ≤ n ∧ n ≤ (modifyLines c).length) ∧
      s'.git.workTree =
        writeEntry s.git.workTree p
          (.textFile (joinSep "\n".data
            (applyModify (modifyLines c) idx mt (genContentS 1 1 sm).1))) := by
  unfold modifyOp at h
  simp only [bind_eqM, M.bind_ok] at h
  obtain ⟨s1, p, h1, s2, content, h2, s3, idx, h3, s4, m, h4, h5⟩ := h
  obtain ⟨e1g, e1t⟩ := modifyTarget_drawPres fp s s1 _ h1
  obtain ⟨e2, mo, hlook⟩ := fsReadToString_ok h2
  have hpos : 0 < (modifyLines content).length :=
    List.length_pos.mpr (modifyLines_ne_nil content)
  obtain ⟨e3g, e3t, hidx, hlnfact⟩ := modifyLineIdx_ok hpos h3
  rw [e1g] at hlook
  rw [liftS_eq] at h4
  obtain ⟨h4s, h4v⟩ := Prod.mk.injEq .. ▸ h4
  have hm : m = (genContentS 1 1 s3).1 := (Except.ok.inj h4v).symm
  unfold fsWriteText at h5
  obtain ⟨h5s, _⟩ := Prod.mk.injEq .. ▸ h5
  obtain ⟨n9, e9⟩ := (genContentS_drawFn 1 1 s3).1
  have hs4git : s4.git = s3.git := by
    rw [← h4s, e9]
  have hs3tool : s3.tool = s.tool := by
    rw [e3t, e2, e1t]
  refine ⟨p, content, mo, idx, s3, hlook, hidx, hs3tool, ?_, hlnfact, ?_⟩
  · intro q hq
    rw [hq] at h1
    have h1x : (s, Except.ok q) = (s1, Except.ok p) := h1
    exact (Except.ok.inj (Prod.mk.injEq .. ▸ h1x).2).symm
  · rw [← h5s]
    show writeEntry s4.git.workTree p
      (.textFile (joinSep "\n".data (applyModify (modifyLines content) idx mt m))) = _
    rw [hm, hs4git, e3g, e2, e1g]
-- ### Properties of the line edit `applyModify`

theorem data_newline_eq : "\n".data = ['\n'] := rfl

theorem stripCR_length (l : Str) : l.length ≤ (stripCR l).length + 1 := by
  unfold stripCR
  split
  · rw [List.length_dropLast]
    omega
  · omega

theorem applyModify_nl_free {L : List Str} {idx : Nat} {mt : ModifyType} {m : Str}
    (hidx : idx < L.length) (hNL : ∀ l ∈ L, '\n' ∉ l) (hmn : '\n' ∉ m) :
    ∀ l ∈ applyModify L idx mt m, '\n' ∉ l := by
  have hold : L.getD idx [] ∈ L := by
    rw [List.getD_eq_getElem L [] hidx]
    exact List.getElem_mem hidx
  intro l hl
  cases mt with
  | append =>
    rcases (List.mem_insertIdx (by omega)).mp hl with h | h
    · exact h ▸ hmn
    · exact hNL l h
  | prepend =>
    rcases (List.mem_insertIdx (by omega)).mp hl with h | h
    · exact h ▸ hmn
    · exact hNL l h
  | prefixOp =>
    rcases List.mem_or_eq_of_mem_set hl with h | h
    · exact hNL l h
    · subst h
      intro hc
      rcases List.mem_append.mp hc with hc | hc
      · rcases List.mem_append.mp hc with hc | hc
        · exact hmn hc
        · simp at hc
      · exact hNL _ hold hc
  | suffixOp =>
    rcases List.mem_or_eq_of_mem_set hl with h | h
    · exact hNL l h
    · subst h
      intro hc
      rcases List.mem_append.mp hc with hc | hc
      · rcases List.mem_append.mp hc with hc | hc
        · exact hNL _ hold hc
        · simp at hc
      · exact hmn hc

theorem applyModify_getLast {L : List Str} {idx : Nat} {mt : ModifyType} {m : Str}
    (hidx : idx < L.length) (hNL : ∀ l ∈ L, '\n' ∉ l)
    (hlast : L.getLastD [] ≠ []) (hm : m ≠ []) (hmn : '\n' ∉ m) :
    ∃ l', (applyModify L idx mt m).getLast? = some l' ∧ l' ≠ [] ∧ '\n' ∉ l' := by
  have hLne : L ≠ [] := by
    intro h0
    rw [h0] at hlast
    simp at hlast
  have hlast' : L.getLast? = some (L.getLast hLne) :=
    List.getLast?_eq_getLast_of_ne_nil hLne
  have hlastne : L.getLast hLne ≠ [] := by
    rw [List.getLastD_eq_getLast?, hlast'] at hlast
    exact hlast
  have hlastnl : '\n' ∉ L.getLast hLne := hNL _ (List.getLast_mem hLne)
  have hold : L.getD idx [] ∈ L := by
    rw [List.getD_eq_getElem L [] hidx]
    exact List.getElem_mem hidx
  cases mt with
  | append =>
    show ∃ l', (L.insertIdx (idx + 1) m).getLast? = some l' ∧ l' ≠ [] ∧ '\n' ∉ l'
    rw [getLast?_insertIdx (idx + 1) m L (by omega)]
    by_cases he : idx + 1 = L.length
    · rw [if_pos he]
      exact ⟨m, rfl, hm, hmn⟩
    · rw [if_neg he]
      exact ⟨L.getLast hLne, hlast', hlastne, hlastnl⟩
  | prepend =>
    show ∃ l', (L.insertIdx idx m).getLast? = some l' ∧ l' ≠ [] ∧ '\n' ∉ l'
    rw [getLast?_insertIdx idx m L (Nat.le_of_lt hidx),
      if_neg (by omega)]
    exact ⟨L.getLast hLne, hlast', hlastne, hlastnl⟩
  | prefixOp =>
    show ∃ l', (L.set idx (m ++ " ".data ++ L.getD idx [])).getLast? = some l' ∧
      l' ≠ [] ∧ '\n' ∉ l'
    rw [getLast?_set idx _ L hidx]
    by_cases he : idx + 1 = L.length
    · rw [if_pos he]
      refine ⟨_, rfl, ?_, ?_⟩
      · intro h0
        have h1 := (List.append_eq_nil.mp h0).1
        have h2 := (List.append_eq_nil.mp h1).1
        exact hm h2
      · intro hc
        rcases List.mem_append.mp hc with hc | hc
        · rcases List.mem_append.mp hc with hc | hc
          · exact hmn hc
          · simp at hc
        · exact hNL _ hold hc
    · rw [if_neg he]
      exact ⟨L.getLast hLne, hlast', hlastne, hlastnl⟩
  | suffixOp =>
    show ∃ l', (L.set idx (L.getD idx [] ++ " ".data ++ m)).getLast? = some l' ∧
      l' ≠ [] ∧ '\n' ∉ l'
    rw [getLast?_set idx _ L hidx]
    by_cases he : idx + 1 = L.length
    · rw [if_pos he]
      refine ⟨_, rfl, ?_, ?_⟩
      · intro h0
        have h2 := (List.append_eq_nil.mp h0).2
        exact hm h2
      · intro hc
        rcases List.mem_append.mp hc with hc | hc
        · rcases List.mem_append.mp hc with hc | hc
          · exact hNL _ hold hc
          · simp at hc
        · exact hmn hc
    · rw [if_neg he]
      exact ⟨L.getLast hLne, hlast', hlastne, hlastnl⟩

theorem applyModify_set_grows {L : List Str} {idx : Nat} {m : Str}
    (hidx : idx < L.length) (hm : m ≠ []) {mt : ModifyType}
    (hmt : mt = .prefixOp ∨ mt = .suffixOp) :
    (((applyModify L idx mt m).map stripCR).getD idx []).length >
      (L.getD idx []).length := by
  have hm1 : 1 ≤ m.length := List.length_pos.mpr hm
  have hsp : (" ".data : Str).length = 1 := rfl
  rcases hmt with h | h <;> subst h
  · show (((L.set idx (m ++ " ".data ++ L.getD idx [])).map stripCR).getD idx
        []).length > (L.getD idx []).length
    have hlen' : idx < (L.set idx (m ++ " ".data ++ L.getD idx [])).length := by
      rw [List.length_set]
      exact hidx
    have hlenm : idx <
        ((L.set idx (m ++ " ".data ++ L.getD idx [])).map stripCR).length := by
      rw [List.length_map]
      exact hlen'
    rw [List.getD_eq_getElem _ [] hlenm, List.getElem_map, List.getElem_set_self]
    have hsl := stripCR_length (m ++ " ".data ++ L.getD idx [])
    have hL : (m ++ " ".data ++ L.getD idx []).length =
        m.length + 1 + (L.getD idx []).length := by
      rw [List.length_append, List.length_append, hsp]
    omega
  · show (((L.set idx (L.getD idx [] ++ " ".data ++ m)).map stripCR).getD idx
        []).length > (L.getD idx []).length
    have hlen' : idx < (L.set idx (L.getD idx [] ++ " ".data ++ m)).length := by
      rw [List.length_set]
      exact hidx
    have hlenm : idx <
        ((L.set idx (L.getD idx [] ++ " ".data ++ m)).map stripCR).length := by
      rw [List.length_map]
      exact hlen'
    rw [List.getD_eq_getElem _ [] hlenm, List.getElem_map, List.getElem_set_self]
    have hsl := stripCR_length (L.getD idx [] ++ " ".data ++ m)
    have hL : (L.getD idx [] ++ " ".data ++ m).length =
        (L.getD idx []).length + 1 + m.length := by
      rw [List.length_append, List.length_append, hsp]
    omega

theorem applyModify_length {L : List Str} {idx : Nat} (mt : ModifyType) (m : Str)
    (hidx : idx < L.length) :
    (applyModify L idx mt m).length =
      if mt = .append ∨ mt = .prepend then L.length + 1 else L.length := by
  cases mt with
  | append =>
    rw [if_pos (Or.inl rfl)]
    exact @List.length_insertIdx _ m (idx + 1) L (by omega)
  | prepend =>
    rw [if_pos (Or.inr rfl)]
    exact @List.length_insertIdx _ m idx L (Nat.le_of_lt hidx)
  | prefixOp =>
    rw [if_neg (by simp)]
    exact List.length_set L idx _
  | suffixOp =>
    rw [if_neg (by simp)]
    exact List.length_set L idx _
/-!  ## Claim C3: line counts after a successful modify -/

/-- A sample state whose tracked file ends in a trailing empty line:
the text "a\n\n" has line vector ["a", ""] under the `modify` convention. -/
def sampleSimC3 : Sim :=
  { sampleSim0 with git :=
    { sampleSim0.git with workTree := [("f.txt", ⟨.textFile "a\n\n".data, 420⟩)] } }

/-- A sample state whose tracked file has a non-empty last line. -/
def sampleSimC3b : Sim :=
  { sampleSim0 with git :=
    { sampleSim0.git with workTree := [("f.txt", ⟨.textFile "a\nb".data, 420⟩)] } }

/-- C3 counterexample: on the file "a\n\n" (line vector ["a", ""], line
count 2), `modify --filepath f.txt --lineno 1 append` succeeds but produces
"a\napple\n" (line vector ["a", "apple"], line count 2): the append did NOT
increase the line count, because rejoining with single newlines drops the
trailing empty line. -/
theorem modify_line_counts_counterexample :
    lookupA sampleSimC3.git.workTree ("f.txt") =
      some ⟨.textFile "a\n\n".data, 420⟩ ∧
    (modifyOp (some "f.txt") (some 1) ModifyType.append sampleSimC3).2 =
      Except.ok () ∧
    lookupA (modifyOp (some "f.txt") (some 1) ModifyType.append
        sampleSimC3).1.git.workTree ("f.txt") =
      some ⟨.textFile "a\napple\n".data, 420⟩ ∧
    lineCountF "a\napple\n".data = lineCountF "a\n\n".data ∧
    ¬ lineCountF "a\napple\n".data = lineCountF "a\n\n".data + 1 := by
  decide

/-- C3 (amended with the hypothesis that the file's last line is non-empty,
i.e. the stored content does not end in a newline; without it the claim
fails, see the counterexample): a successful explicit-target `modify` in
append mode increases the file's line count by exactly 1, and in
prefix/suffix mode keeps the line count and strictly grows the length of
the targeted line. -/
theorem modify_line_counts (s : Sim) (p : String) (n : Nat) (mt : ModifyType)
    (c : Str) (mo : Nat)
    (hw : corpusOk s.tool.words)
    (hf : lookupA s.git.workTree p = some ⟨.textFile c, mo⟩)
    (hlast : (modifyLines c).getLastD [] ≠ [])
    (hr : (modifyOp (some p) (some n) mt s).2 = Except.ok ()) :
    ∃ c', lookupA (modifyOp (some p) (some n) mt s).1.git.workTree p =
        some ⟨.textFile c', mo⟩ ∧
      (mt = .append → lineCountF c' = lineCountF c + 1) ∧
      (mt = .prefixOp ∨ mt = .suffixOp →
        lineCountF c' = lineCountF c ∧
        ((modifyLines c').getD (n - 1) []).length >
          ((modifyLines c).getD (n - 1) []).length) := by
  have hpair : modifyOp (some p) (some n) mt s =
      ((modifyOp (some p) (some n) mt s).1, Except.ok ()) := by
    rw [← hr]
  obtain ⟨p', c'', mo', idx, sm, hlook', hidx, hsmt, hfp, hln, hwt⟩ :=
    modifyOp_ok hpair
  have hpq : p' = p := hfp p rfl
  rw [hpq] at hlook' hwt
  have hyx : (⟨.textFile c'', mo'⟩ : FileEntry) = ⟨.textFile c, mo⟩ :=
    Option.some.inj (hlook'.symm.trans hf)
  simp only [FileEntry.mk.injEq, FileData.textFile.injEq] at hyx
  obtain ⟨hcc, hmo⟩ := hyx
  rw [hcc] at hidx hln hwt
  obtain ⟨hidxn, hn1, hn2⟩ := hln n rfl
  have hwords : corpusOk sm.tool.words := by
    rw [hsmt]
    exact hw
  obtain ⟨hmne, hmnl⟩ := genContentS11_props sm hwords
  have hNL : ∀ l ∈ modifyLines c, '\n' ∉ l := modifyLines_nl_free c
  have hfree' : ∀ l ∈ applyModify (modifyLines c) idx mt (genContentS 1 1 sm).1,
      '\n' ∉ l := applyModify_nl_free hidx hNL hmnl
  obtain ⟨l', hl', hl'ne, hl'nl⟩ := applyModify_getLast hidx hNL hlast hmne hmnl
  have hround : modifyLines (joinSep "\n".data
        (applyModify (modifyLines c) idx mt (genContentS 1 1 sm).1)) =
      (applyModify (modifyLines c) idx mt (genContentS 1 1 sm).1).map stripCR := by
    rw [data_newline_eq]
    exact modifyLines_joinSepNL hl' hl'ne hfree'
  refine ⟨joinSep "\n".data
      (applyModify (modifyLines c) idx mt (genContentS 1 1 sm).1), ?_, ?_, ?_⟩
  · rw [hwt]
    exact lookupA_writeEntry_self _ _ _ hf
  · intro hmt
    unfold lineCountF
    rw [hround, List.length_map, applyModify_length mt _ hidx,
      if_pos (Or.inl hmt)]
  · intro hmt
    constructor
    · unfold lineCountF
      rw [hround, List.length_map, applyModify_length mt _ hidx,
        if_neg (by rcases hmt with h | h <;> subst h <;> simp)]
    · rw [← hidxn, hround]
      exact applyModify_set_grows hidx hmne hmt

/-- Witness for C3 at a concrete input: appending to line 2 of the file
"a\nb" (whose last line "b" is non-empty). -/
theorem modify_line_counts_witness :
    (corpusOk sampleSimC3b.tool.words ∧
      lookupA sampleSimC3b.git.workTree ("f.txt") =
        some ⟨.textFile "a\nb".data, 420⟩ ∧
      (modifyLines "a\nb".data).getLastD [] ≠ [] ∧
      (modifyOp (some "f.txt") (some 2) ModifyType.append sampleSimC3b).2 =
        Except.ok ()) ∧
    (∃ c', lookupA (modifyOp (some "f.txt") (some 2) ModifyType.append
          sampleSimC3b).1.git.workTree ("f.txt") =
        some ⟨.textFile c', 420⟩ ∧
      (ModifyType.append = .append →
        lineCountF c' = lineCountF "a\nb".data + 1) ∧
      (ModifyType.append = .prefixOp ∨ ModifyType.append = .suffixOp →
        lineCountF c' = lineCountF "a\nb".data ∧
        ((modifyLines c').getD (2 - 1) []).length >
          ((modifyLines "a\nb".data).getD (2 - 1) []).length)) :=
  ⟨⟨by decide, by decide, by decide, by decide⟩,
    modify_line_counts sampleSimC3b "f.txt" 2 ModifyType.append "a\nb".data 420
      (by decide) (by decide) (by decide) (by decide)⟩
/-!  ## Claim C10: a rewritten file never ends in a newline -/

/-- C10 counterexample: the stored file "a\n\n" DOES end in a newline after
a successful suffix modify: the result is "a apple\n", whose last character
is a newline (the trailing empty line survives the split/rejoin as the final
"\n").  The claim as stated, quantifying over files that may end in a
trailing newline, is false. -/
theorem modify_no_trailing_newline_counterexample :
    (modifyOp (some "f.txt") (some 1) ModifyType.suffixOp sampleSimC3).2 =
      Except.ok () ∧
    lookupA (modifyOp (some "f.txt") (some 1) ModifyType.suffixOp
        sampleSimC3).1.git.workTree ("f.txt") =
      some ⟨.textFile "a apple\n".data, 420⟩ ∧
    ("a apple\n".data).getLast? = some '\n' := by
  decide

/-- The property of a stored file that the amended C10 assumes: a text
file's last line (under the `modify` line convention) is non-empty, i.e.
the stored content does not end in a newline.  Binary files are exempt
(`modify` cannot read them). -/
def lastLineOk : FileData → Prop
  | .textFile c => (modifyLines c).getLastD [] ≠ []
  | .binFile _ => True

instance lastLineOk_decidable (d : FileData) : Decidable (lastLineOk d) := by
  unfold lastLineOk
  cases d <;> infer_instance

theorem lookupA_mem {β : Type} :
    ∀ {t : List (String × β)} {k : String} {v : β},
      lookupA t k = some v → (k, v) ∈ t
  | [], _, _, h => by simp [lookupA] at h
  | (k', w) :: t, k, v, h => by
    by_cases he : k' = k
    · rw [lookupA, if_pos he] at h
      rw [he]
      rw [Option.some.inj h]
      exact List.mem_cons_self _ _
    · rw [lookupA, if_neg he] at h
      exact List.mem_cons.mpr (Or.inr (lookupA_mem h))

/-- C10 (amended with the hypothesis that every tracked text file's last
line is non-empty; without it the claim fails, see the counterexample):
after every successful `modify`, the rewritten file's content does not end
with a newline character. -/
theorem modify_no_trailing_newline (fp : Option String) (ln : Option Nat)
    (mt : ModifyType) (s : Sim)
    (hw : corpusOk s.tool.words)
    (hall : ∀ pr ∈ s.git.workTree, lastLineOk pr.2.data)
    (hr : (modifyOp fp ln mt s).2 = Except.ok ()) :
    ∃ p c', (modifyOp fp ln mt s).1.git.workTree =
        writeEntry s.git.workTree p (.textFile c') ∧
      c'.getLast? ≠ some '\n' := by
  have hpair : modifyOp fp ln mt s = ((modifyOp fp ln mt s).1, Except.ok ()) := by
    rw [← hr]
  obtain ⟨p, c, mo, idx, sm, hlook, hidx, hsmt, _, _, hwt⟩ := modifyOp_ok hpair
  have hlast : (modifyLines c).getLastD [] ≠ [] :=
    hall (p, ⟨.textFile c, mo⟩) (lookupA_mem hlook)
  have hwords : corpusOk sm.tool.words := by
    rw [hsmt]
    exact hw
  obtain ⟨hmne, hmnl⟩ := genContentS11_props sm hwords
  have hNL : ∀ l ∈ modifyLines c, '\n' ∉ l := modifyLines_nl_free c
  obtain ⟨l', hl', hl'ne, hl'nl⟩ := applyModify_getLast hidx hNL hlast hmne hmnl
  refine ⟨p, _, hwt, ?_⟩
  have hj : (joinSep "\n".data
        (applyModify (modifyLines c) idx mt (genContentS 1 1 sm).1)).getLast? =
      l'.getLast? := by
    rw [data_newline_eq]
    exact joinSep_getLast? hl' hl'ne
  rw [hj]
  intro hc
  obtain ⟨h1, h2⟩ := List.mem_getLast?_eq_getLast hc
  exact hl'nl (h2 ▸ List.getLast_mem h1)

/-- Witness for C10 at a concrete input: a suffix modify on the file
"a\nb", whose result "a apple\nb" ends in the character of its non-empty
last line. -/
theorem modify_no_trailing_newline_witness :
    (corpusOk sampleSimC3b.tool.words ∧
      (∀ pr ∈ sampleSimC3b.git.workTree, lastLineOk pr.2.data) ∧
      (modifyOp (some "f.txt") (some 1) ModifyType.suffixOp sampleSimC3b).2 =
        Except.ok ()) ∧
    (∃ p c', (modifyOp (some "f.txt") (some 1) ModifyType.suffixOp
          sampleSimC3b).1.git.workTree =
        writeEntry sampleSimC3b.git.workTree p (.textFile c') ∧
      c'.getLast? ≠ some '\n') :=
  ⟨⟨by decide, by decide, by decide⟩,
    modify_no_trailing_newline (some "f.txt") (some 1) ModifyType.suffixOp
      sampleSimC3b (by decide) (by decide) (by decide)⟩
/-!  ## Claim C6: commit synthesizes changes and never commits emptily -/

/-- The body of `commit` for the `branch = false` invocation
(src/src/main.rs lines 425-450, skipping the branch step).  `commitOp`
itself is compiled by well-founded recursion (it is mutual with
`branchOp`), so this definitionally equal plain copy is what concrete
executions are evaluated on. -/
def commitNB (commit_name : Option String) : M Unit := do
  let name ← match commit_name with
    | some n => pure n
    | none => genWordM
  let status ← gitStatus
  if status = [] then do
    let n ← liftS (drawNat 1 3)
    changeOp n
  else pure ()
  commitFinish name

theorem commitOp_false_eq (nm : Option String) (s : Sim) :
    commitOp nm false s = commitNB nm s := by
  unfold commitOp commitNB
  rfl

theorem commitNB_eq (nm : Option String) (s : Sim) :
    commitNB nm s =
      (unwrapOrElse nm genWordM >>= fun name =>
        gitStatus >>= fun status =>
          if status = [] then
            (liftS (drawNat 1 3) >>= fun n => changeOp n) >>=
              fun _ => commitFinish name
          else pure () >>= fun _ => commitFinish name) s := by
  cases nm <;> rfl

-- ### State-preservation facts for the operations `commit` composes

theorem MDrawPres.treeOnlyDraw {α : Type} {x : M α} (h : MDrawPres x) : MTreeOnly x := by
  intro s s' r hr
  obtain ⟨h1, _⟩ := h s s' r hr
  rw [h1]
  exact ⟨rfl, rfl, rfl⟩

theorem findFilesInSrc_gitPres : MGitPres findFilesInSrc := by
  intro s s' r hr
  unfold findFilesInSrc at hr
  obtain ⟨h1, _⟩ := Prod.mk.injEq .. ▸ hr
  rw [← h1]

theorem drawCoin_drawPres : MDrawPres (liftS drawCoin) := by
  intro s s' r hr
  rw [liftS_eq] at hr
  obtain ⟨h1, _⟩ := Prod.mk.injEq .. ▸ hr
  rw [← h1]
  exact ⟨rfl, rfl⟩

theorem modifyLineIdx_treeOnly (ln : Option Nat) (len : Nat) :
    MTreeOnly (modifyLineIdx ln len) := by
  cases ln with
  | some n =>
    show MTreeOnly (if n = 0 ∨ n > len then M.fail (.outOfRange n len)
      else pure (n - 1))
    by_cases hc : n = 0 ∨ n > len
    · rw [if_pos hc]
      exact (MGitPres.failGit _).treeOnly
    · rw [if_neg hc]
      exact (MGitPres.pureGit _).treeOnly
  | none => exact (drawNat_drawFn 0 (len - 1)).drawPres.treeOnlyDraw

theorem modifyOp_treeOnly (fp : Option String) (ln : Option Nat) (mt : ModifyType) :
    MTreeOnly (modifyOp fp ln mt) := by
  unfold modifyOp
  refine MTreeOnly.bindTree (modifyTarget_drawPres fp).treeOnlyDraw (fun file_path => ?_)
  refine MTreeOnly.bindTree (MGitPres.treeOnly (fsReadToString_gitPres file_path))
    (fun content => ?_)
  refine MTreeOnly.bindTree (modifyLineIdx_treeOnly ln (modifyLines content).length)
    (fun line_idx => ?_)
  refine MTreeOnly.bindTree ((genContentS_drawFn 1 1).drawPres.treeOnlyDraw)
    (fun modification => ?_)
  exact fsWriteText_treeOnly _ _

theorem createLoop_none_treeOnly : ∀ n, MTreeOnly (createLoop none none n)
  | 0 => (MGitPres.pureGit ()).treeOnly
  | n + 1 => by
    intro s s' r hr
    rw [createLoop_none_succ] at hr
    obtain ⟨a1, a2, a3⟩ := createLoop_none_treeOnly n _ _ _ hr
    have hX : (genContentS 5 1 (genFilepathS 3 1 none s).2).2.git = s.git := by
      obtain ⟨n2, e2⟩ := (genContentS_drawFn 5 1 ((genFilepathS 3 1 none s).2)).1
      obtain ⟨n1, e1⟩ := (genFilepathS_drawFn 3 1 none s).1
      rw [e2, e1]
    have b1 : s'.git.branches =
      (genContentS 5 1 (genFilepathS 3 1 none s).2).2.git.branches := a1
    have b2 : s'.git.current =
      (genContentS 5 1 (genFilepathS 3 1 none s).2).2.git.current := a2
    have b3 : s'.git.index =
      (genContentS 5 1 (genFilepathS 3 1 none s).2).2.git.index := a3
    rw [hX] at b1 b2 b3
    exact ⟨b1, b2, b3⟩

theorem createOp1_treeOnly : MTreeOnly (createOp 1 none none) :=
  createLoop_none_treeOnly 1

theorem changeLoop_succ_eq (n : Nat) (s : Sim) :
    changeLoop (n + 1) s =
      (findFilesInSrc >>= fun files =>
        if files = [] then createOp 1 none none >>= fun _ => changeLoop n
        else liftS drawCoin >>= fun coin =>
          if coin then createOp 1 none none >>= fun _ => changeLoop n
          else modifyOp none none .append >>= fun _ => changeLoop n) s := rfl

theorem changeLoop_treeOnly : ∀ n, MTreeOnly (changeLoop n)
  | 0 => (MGitPres.pureGit ()).treeOnly
  | n + 1 => by
    intro s s' r hr
    rw [changeLoop_succ_eq] at hr
    refine MTreeOnly.bindTree findFilesInSrc_gitPres.treeOnly (fun files => ?_) s s' r hr
    by_cases hf : files = []
    · rw [if_pos hf]
      exact MTreeOnly.bindTree createOp1_treeOnly (fun _ => changeLoop_treeOnly n)
    · rw [if_neg hf]
      refine MTreeOnly.bindTree drawCoin_drawPres.treeOnlyDraw (fun coin => ?_)
      by_cases hc : coin = true
      · rw [if_pos hc]
        exact MTreeOnly.bindTree createOp1_treeOnly (fun _ => changeLoop_treeOnly n)
      · rw [if_neg hc]
        exact MTreeOnly.bindTree (modifyOp_treeOnly none none .append)
          (fun _ => changeLoop_treeOnly n)

theorem changeOp_treeOnly (count : Nat) : MTreeOnly (changeOp count) := by
  unfold changeOp
  show MTreeOnly (if count = 0 then
      liftS (drawNat 1 5) >>= fun y => changeLoop y
    else pure count >>= fun y => changeLoop y)
  by_cases hc : count = 0
  · rw [if_pos hc]
    exact MTreeOnly.bindTree (drawNat_drawFn 1 5).drawPres.treeOnlyDraw
      (fun y => changeLoop_treeOnly y)
  · rw [if_neg hc]
    exact MTreeOnly.bindTree (MGitPres.pureGit count).treeOnly
      (fun y => changeLoop_treeOnly y)

-- ### Small stepping helpers

theorem M.bind_step {α β : Type} {x : M α} {f : α → M β} {s s₁ : Sim} {a : α}
    (hx : x s = (s₁, Except.ok a)) : (x >>= f) s = f a s₁ := by
  rw [bind_eqM]
  unfold M.bind
  rw [hx]

theorem unwrapOrElse_ok (nm : Option String) (s : Sim) :
    ∃ name s₀, unwrapOrElse nm genWordM s = (s₀, Except.ok name) := by
  cases nm with
  | some n => exact ⟨n, s, rfl⟩
  | none => exact ⟨(genWordS s).1, (genWordS s).2, rfl⟩

theorem unwrapOrElse_git {nm : Option String} {s s₁ : Sim} {r : Except GErr String}
    (h : unwrapOrElse nm genWordM s = (s₁, r)) : s₁.git = s.git := by
  cases nm with
  | some n =>
    have h' : (s, Except.ok n) = (s₁, r) := h
    obtain ⟨h1, _⟩ := Prod.mk.injEq .. ▸ h'
    rw [← h1]
  | none => exact (genWordS_drawFn.drawPres s s₁ r h).1

/-- Anatomy of a successful `commitFinish`: the branch stays, the tip of
the current branch becomes the staged working tree, which differed from the
previous tip — the commit is never empty. -/
theorem commitFinish_ok {name : String} {s s' : Sim}
    (h : commitFinish name s = (s', Except.ok ())) :
    s'.git.current = s.git.current ∧
    tipTree s'.git = s.git.workTree ∧
    s.git.workTree ≠ tipTree s.git := by
  unfold commitFinish at h
  simp only [bind_eqM, M.bind_ok] at h
  obtain ⟨s₄, u₄, h41, s₅, ch, h42, s₆, out, h43, h44⟩ := h
  rw [gitAddSrc_eq] at h41
  obtain ⟨h41s, _⟩ := Prod.mk.injEq .. ▸ h41
  rw [gitStatus_eq] at h42
  obtain ⟨h42s, _⟩ := Prod.mk.injEq .. ▸ h42
  rw [runGit_commit_eq] at h43
  by_cases hc : s₅.git.index = tipTree s₅.git
  · rw [if_pos hc] at h43
    exact absurd (Prod.mk.injEq .. ▸ h43).2 (by simp)
  · rw [if_neg hc] at h43
    obtain ⟨h43s, _⟩ := Prod.mk.injEq .. ▸ h43
    have h44' : (s₆, Except.ok ()) = (s', Except.ok ()) := h44
    obtain ⟨h44s, _⟩ := Prod.mk.injEq .. ▸ h44'
    refine ⟨?_, ?_, ?_⟩
    · rw [← h44s, ← h43s]
      show s₅.git.current = s.git.current
      rw [← h42s]
      show s₄.git.current = s.git.current
      rw [← h41s]
    · rw [← h44s, ← h43s]
      show (lookupA (setA s₅.git.branches s₅.git.current s₅.git.index)
        s₅.git.current).getD [] = s.git.workTree
      rw [lookupA_setA_self]
      show s₅.git.index = s.git.workTree
      rw [← h42s]
      show s₄.git.index = s.git.workTree
      rw [← h41s]
    · intro he
      apply hc
      rw [← h42s]
      show s₄.git.index = tipTree s₄.git
      rw [← h41s]
      exact he

/-- The dirty sample state with one committed file equal to the working
tree, over the adversarial oracle that regenerates exactly that file. -/
def treeC6 : FsTree := [("apple.txt", ⟨.textFile "apple".data, 420⟩)]

def sampleSimC6 : Sim :=
  { sampleSim0 with git :=
    { branches := [("main", treeC6)], current := "main",
      workTree := treeC6, index := treeC6 } }

/-- C6 counterexample: invoked on a clean tree, `commit` does synthesize a
random change — but the synthesized change can recreate an existing file
byte-for-byte (here the oracle draws path "apple.txt" and content "apple",
both already present), so the status inspected immediately before the
commit command is EMPTY and `git commit` fails with "nothing to commit".
The claimed consequence "the status before the commit is non-empty" is
false. -/
theorem commit_synthesizes_counterexample :
    statusPaths sampleSimC6.git = [] ∧
    (commitOp (some "msg") false sampleSimC6).2 =
      Except.error (.toolError "nothing to commit") := by
  constructor
  · decide
  · rw [commitOp_false_eq]
    decide

/-- C6 (amended: the synthesized-changes half of the claim holds, and the
commit that eventually succeeds is never empty — it strictly changes the
tip of the current branch; but the claimed "status inspected immediately
before the commit is non-empty" is dropped, see the counterexample): on a
clean tree, `commit` first runs `change n` for some random `n ∈ [1, 3]`,
and every successful `commit` leaves the same branch checked out with a
tip tree different from the one it started from. -/
theorem commit_synthesizes_and_never_empty (nm : Option String) (s : Sim) :
    (statusPaths s.git = [] →
      ∃ name s₁ n, 1 ≤ n ∧ n ≤ 3 ∧
        commitOp nm false s =
          (changeOp n >>= fun _ => commitFinish name) s₁) ∧
    (∀ s', commitOp nm false s = (s', Except.ok ()) →
      s'.git.current = s.git.current ∧ tipTree s'.git ≠ tipTree s.git) := by
  constructor
  · intro hclean
    obtain ⟨name, s₀, hname⟩ := unwrapOrElse_ok nm s
    have hgit := unwrapOrElse_git hname
    refine ⟨name, (drawNat 1 3 (bumpC s₀)).2, (drawNat 1 3 (bumpC s₀)).1,
      ?_, ?_, ?_⟩
    · show 1 ≤ 1 + (drawRaw (bumpC s₀)).1 % 3
      omega
    · show 1 + (drawRaw (bumpC s₀)).1 % 3 ≤ 3
      have h3 : (drawRaw (bumpC s₀)).1 % 3 < 3 := Nat.mod_lt _ (by omega)
      omega
    · rw [commitOp_false_eq, commitNB_eq, M.bind_step hname,
        M.bind_step (gitStatus_eq s₀), hgit, if_pos hclean]
      rfl
  · intro s' h
    rw [commitOp_false_eq, commitNB_eq] at h
    simp only [bind_eqM, M.bind_ok] at h
    obtain ⟨s₁, name, h1, s₂, st, h2, h3⟩ := h
    have hg1 : s₁.git = s.git := unwrapOrElse_git h1
    rw [gitStatus_eq] at h2
    obtain ⟨h2s, _⟩ := Prod.mk.injEq .. ▸ h2
    have e2 : s₂.git = s.git := by
      rw [← h2s]
      exact hg1
    have htail : ∃ s₃, s₃.git.branches = s.git.branches ∧
        s₃.git.current = s.git.current ∧
        commitFinish name s₃ = (s', Except.ok ()) := by
      split at h3
      · simp only [M.bind_ok] at h3
        obtain ⟨s₃, u, ⟨s₄, n, h31a, h31b⟩, h32⟩ := h3
        have e4 : s₄.git = s₂.git := ((drawNat_drawFn 1 3).drawPres _ _ _ h31a).1
        obtain ⟨t1, t2, _⟩ := changeOp_treeOnly n _ _ _ h31b
        refine ⟨s₃, ?_, ?_, h32⟩
        · rw [t1]
          exact congrArg GitState.branches (e4.trans e2)
        · rw [t2]
          exact congrArg GitState.current (e4.trans e2)
      · simp only [M.bind_ok] at h3
        obtain ⟨s₃, u, h31, h32⟩ := h3
        have h31' : (s₂, Except.ok ()) = (s₃, Except.ok u) := h31
        obtain ⟨hs, _⟩ := Prod.mk.injEq .. ▸ h31'
        refine ⟨s₃, ?_, ?_, h32⟩
        · rw [← hs]
          exact congrArg GitState.branches e2
        · rw [← hs]
          exact congrArg GitState.current e2
    obtain ⟨s₃, hbr, hcur, h32⟩ := htail
    obtain ⟨c1, c2, c3⟩ := commitFinish_ok h32
    have htip : tipTree s₃.git = tipTree s.git := by
      unfold tipTree
      rw [hbr, hcur]
    refine ⟨c1.trans hcur, ?_⟩
    rw [c2, ← htip]
    exact c3

/-- Witness for C6 at a concrete input: committing on the empty clean tree
of `sampleSim0` synthesizes a change and succeeds with a new tip. -/
theorem commit_synthesizes_and_never_empty_witness :
    (statusPaths sampleSim0.git = [] ∧
      ∃ name s₁ n, 1 ≤ n ∧ n ≤ 3 ∧
        commitOp (some "msg") false sampleSim0 =
          (changeOp n >>= fun _ => commitFinish name) s₁) ∧
    (commitOp (some "msg") false sampleSim0 =
        ((commitOp (some "msg") false sampleSim0).1, Except.ok ()) ∧
      (commitOp (some "msg") false sampleSim0).1.git.current =
        sampleSim0.git.current ∧
      tipTree (commitOp (some "msg") false sampleSim0).1.git ≠
        tipTree sampleSim0.git) := by
  have hclean : statusPaths sampleSim0.git = [] := by decide
  have hok : commitOp (some "msg") false sampleSim0 =
      ((commitOp (some "msg") false sampleSim0).1, Except.ok ()) := by
    rw [commitOp_false_eq]
    have h2 : (commitNB (some "msg") sampleSim0).2 = Except.ok () := by decide
    rw [← h2]
  obtain ⟨hc1, hc2⟩ :=
    (commit_synthesizes_and_never_empty (some "msg") sampleSim0).2 _ hok
  exact ⟨⟨hclean,
    (commit_synthesizes_and_never_empty (some "msg") sampleSim0).1 hclean⟩,
    hok, hc1, hc2⟩
